import Mathlib

/-!
# dockerling: a verification development of `cmd/main.go`

The program resolves an image reference, pulls the layers of the image from a
registry, unpacks them into a temporary root directory and runs a command
inside it.

The development embeds `main` and `copyFile` together with the library
functions they call, by their behaviour on Linux:

* Go strings are byte sequences and are embedded as `List Char`;
* `path/filepath` (`Clean`, `Join`, `Dir`, `Rel`, `IsAbs`) works on the
  elements between separators, as the Go implementation does byte by byte;
* the filesystem is a map from resolved locations to files, directories and
  symbolic links; path resolution follows symbolic links with the bound of 40
  that Linux has; ownership and permission checks, and failures of writing
  and closing a file, are outside the model;
* the registry, `exec.LookPath` and the command that is run are given from
  outside as the answers the run receives;
* a run of `main` is the list of deferred calls it registers together with
  the way its body ends: by returning, by a panic or by `os.Exit`.

The definitions come first, the theorems after them.
-/

namespace Dockerling

/-- A Go string. -/
abbrev Str := List Char

/-! ## `strings.Split` and the image reference (main.go, lines 41-46) -/

/-- Go `strings.Split(s, sep)` for a one-byte separator: the pieces of `s`
between occurrences of `sep`; there is always at least one piece. -/
def Split : Str → Char → List Str
  | [], _ => [[]]
  | c :: cs, sep =>
    if c = sep then [] :: Split cs sep
    else
      match Split cs sep with
      | [] => [[c]]
      | p :: ps => (c :: p) :: ps

/-- The image name and tag that `main` derives from `os.Args[2]`. -/
structure ImageReference where
  name : Str
  tag : Str
deriving DecidableEq

/-- Lines 41-46 of `main`:
`img := strings.Split(os.Args[2], ":")`, `imgName := img[0]`,
`imgTag := "latest"`, `if len(img) > 1 { imgTag = img[1] }`. -/
def parseImage (arg : Str) : ImageReference :=
  let img := Split arg ':'
  let imgName := img.headD []
  let imgTag := if img.length > 1 then img.getD 1 [] else "latest".toList
  { name := imgName, tag := imgTag }

/-- The part of `s` after its first colon. -/
def afterFirstColon (s : Str) : Str :=
  (s.dropWhile (fun c => c != ':')).drop 1

/-! ## Lexical paths (package `path/filepath` on Linux) -/

/-- Go `strings.Join(elems, "/")`. -/
def joinSep : List Str → Str
  | [] => []
  | [e] => e
  | e :: e2 :: es => e ++ '/' :: joinSep (e2 :: es)

/-- The output of `filepath.Clean` while it scans: the elements written so far
(most recent first) and how many of them, counted from the start, are the
leading `..` elements that a later `..` must not remove (`dotdot` in the Go
source). -/
structure CleanBuf where
  out : List Str
  dotdot : Nat

/-- One step of the scan of `filepath.Clean` for the element `e`: an empty
element and `.` are dropped; `..` removes the last element written when there
is one past `dotdot`, is dropped at the root of a rooted path, and is written
otherwise; any other element is written. -/
def cleanStep (rooted : Bool) (b : CleanBuf) (e : Str) : CleanBuf :=
  if e = [] ∨ e = ['.'] then b
  else if e = ['.', '.'] then
    if b.out.length > b.dotdot then { b with out := b.out.tail }
    else if rooted then b
    else { out := e :: b.out, dotdot := b.out.length + 1 }
  else { b with out := e :: b.out }

/-- Go `filepath.Clean(path)`: the shortest path equivalent to `path` by
lexical processing; the empty path becomes `.`. -/
def Clean (path : Str) : Str :=
  if path = [] then ['.']
  else
    let rooted := path.head? == some '/'
    let b := (Split path '/').foldl (cleanStep rooted) { out := [], dotdot := 0 }
    let body := joinSep b.out.reverse
    if rooted then '/' :: body
    else if body = [] then ['.'] else body

/-- Go `filepath.Join(a, b)`: the elements joined with a separator and
cleaned; empty elements are ignored. -/
def Join (a b : Str) : Str :=
  if a ≠ [] then Clean (a ++ '/' :: b)
  else if b ≠ [] then Clean b
  else []

/-- Go `filepath.Dir(path)`: the cleaned form of `path` up to and including its
last separator. -/
def Dir (path : Str) : Str :=
  Clean (path.reverse.dropWhile (fun c => c != '/')).reverse

/-- Go `filepath.IsAbs(path)` on Unix. -/
def IsAbs (path : Str) : Bool := path.head? == some '/'

/-- The elements `filepath.Rel` steps through in a cleaned path: the pieces
between separators, with no piece after a separator that ends the path. -/
def relElems (s : Str) : List Str :=
  if s = [] then []
  else if s.getLast? = some '/' then (Split s '/').dropLast
  else Split s '/'

/-- The loop of `filepath.Rel` that skips the common leading elements of base
and target: what is left of the base, what is left of the target, and the
first element left of the base (empty when nothing is left of it). -/
def relLoop : List Str → List Str → List Str × List Str × Str
  | b :: bs, t :: ts => if t = b then relLoop bs ts else (b :: bs, t :: ts, b)
  | [], ts => ([], ts, [])
  | b :: bs, [] => (b :: bs, [], b)

/-- Go `filepath.Rel(basepath, targpath)` on Unix: a relative path that, joined
to `basepath`, is lexically equivalent to `targpath`; `none` stands for the
error, which is returned when one path is rooted and the other is not, and
when the base is left with a leading `..` that the target does not share. -/
def Rel (basepath targpath : Str) : Option Str :=
  let base := Clean basepath
  let targ := Clean targpath
  if targ = base then some ['.']
  else
    let base := if base = ['.'] then [] else base
    let baseSlashed := base.head? == some '/'
    let targSlashed := targ.head? == some '/'
    if baseSlashed != targSlashed then none
    else
      match relLoop (relElems base) (relElems targ) with
      | (bs, ts, stop) =>
        if stop = ['.', '.'] then none
        else if bs ≠ [] then
          let ups := joinSep (bs.map fun _ => ['.', '.'])
          some (if ts ≠ [] then ups ++ '/' :: joinSep ts else ups)
        else some (joinSep ts)

/-- A path element that `Clean` keeps as it is: not empty, not `.`, not `..`,
and free of separators. -/
def Proper (e : Str) : Prop :=
  e ≠ [] ∧ e ≠ ['.'] ∧ e ≠ ['.', '.'] ∧ '/' ∉ e

/-- The cleaned absolute path with the elements `cs`. -/
def render (cs : List Str) : Str := '/' :: joinSep cs

/-- The scan step of `Clean` on a rooted path, on the element list alone. -/
def normStep (out : List Str) (e : Str) : List Str :=
  if e = [] ∨ e = ['.'] then out
  else if e = ['.', '.'] then out.tail
  else e :: out

/-- The elements of `Join R n` for an absolute root `R`, most recent first. -/
def joinElems (R n : Str) : List Str :=
  (Split n '/').foldl normStep ((Split R '/').foldl normStep [])

/-- What `Rel` returns for two cleaned absolute paths whose element lists
differ after the common prefix by `bs` (base) and `ts` (target). -/
def relText (bs ts : List Str) : Str :=
  if bs = [] ∧ ts = [] then ['.']
  else joinSep (List.replicate bs.length ['.', '.'] ++ ts)

/-! ## The filesystem (package `os` on Linux) -/

/-- The system-call errors the model produces. -/
inductive Errno
  | ENOENT | ENOTDIR | EEXIST | EISDIR | ELOOP
deriving DecidableEq

/-- An object of the filesystem: a regular file with its bytes and mode, a
directory with its mode, or a symbolic link with its stored text. -/
inductive Node
  | file (content : List Nat) (mode : Nat)
  | dir (mode : Nat)
  | symlink (target : Str)
deriving DecidableEq

/-- A resolved location: the names on the way from the root directory, without
symbolic links, `.` or `..`. -/
abbrev Loc := List Str

/-- The filesystem state as the process sees it: the objects by location, the
working directory and the umask.  Every location holds an object of its own:
hard links, which the program never makes, are not part of the state. -/
structure FS where
  nodes : Loc → Option Node
  cwd : Loc
  umask : Nat

/-- The state with the object at `loc` replaced by `n`. -/
def setNode (fs : FS) (loc : Loc) (n : Node) : FS :=
  { fs with nodes := fun q => if q = loc then some n else fs.nodes q }

/-- Go `a &^ b` (bit clear). -/
def andNot (a b : Nat) : Nat := a &&& (a ^^^ b)

/-- The elements of a path as the kernel walks them: the pieces between
separators, empty pieces and `.` dropped. -/
def pathElems (path : Str) : List Str :=
  (Split path '/').filter (fun e => decide (e ≠ [] ∧ e ≠ ['.']))

/-- One pass of the path walk over the remaining elements, from the directory
`cur`.  `follow` continues the walk in the text of a symbolic link.  The walk
ends at the location the last element names, whether or not something exists
there; a missing or non-directory element before the last is an error. -/
def walkAux (fs : FS) (followLast : Bool) (follow : Loc → List Str → Except Errno Loc) :
    Loc → List Str → Except Errno Loc
  | cur, [] => .ok cur
  | cur, e :: rest =>
    if e = ['.', '.'] then walkAux fs followLast follow cur.dropLast rest
    else
      match fs.nodes (cur ++ [e]) with
      | none => if rest = [] then .ok (cur ++ [e]) else .error .ENOENT
      | some (.file _ _) => if rest = [] then .ok (cur ++ [e]) else .error .ENOTDIR
      | some (.dir _) => walkAux fs followLast follow (cur ++ [e]) rest
      | some (.symlink t) =>
        if rest = [] ∧ followLast = false then .ok (cur ++ [e])
        else follow (if IsAbs t then [] else cur) (pathElems t ++ rest)

/-- The path walk with at most `n` symbolic links left to follow before
`ELOOP`. -/
def walk (fs : FS) (followLast : Bool) : Nat → Loc → List Str → Except Errno Loc
  | 0 => fun _ _ => .error .ELOOP
  | n + 1 => walkAux fs followLast (walk fs followLast n)

/-- Linux follows at most 40 symbolic links in one resolution. -/
def maxSymlinks : Nat := 40

/-- The location a path names.  With `followLast` a symbolic link in last
position is followed (`stat`, `open`, `chmod`), without it is not (`lstat`,
`symlink`, `mkdir`). -/
def resolve (fs : FS) (followLast : Bool) (path : Str) : Except Errno Loc :=
  if path = [] then .error .ENOENT
  else walk fs followLast (maxSymlinks + 1) (if IsAbs path then [] else fs.cwd) (pathElems path)

/-- Go `os.Stat`. -/
def Stat (fs : FS) (name : Str) : Except Errno Node :=
  match resolve fs true name with
  | .error e => .error e
  | .ok loc =>
    match fs.nodes loc with
    | none => .error .ENOENT
    | some n => .ok n

/-- Go `os.Lstat`. -/
def Lstat (fs : FS) (name : Str) : Except Errno Node :=
  match resolve fs false name with
  | .error e => .error e
  | .ok loc =>
    match fs.nodes loc with
    | none => .error .ENOENT
    | some n => .ok n

/-- Go `os.Chmod(name, mode)`: follows symbolic links and sets the mode of the
file or directory found. -/
def Chmod (fs : FS) (name : Str) (mode : Nat) : Except Errno FS :=
  match resolve fs true name with
  | .error e => .error e
  | .ok loc =>
    match fs.nodes loc with
    | some (.file c _) => .ok (setNode fs loc (.file c mode))
    | some (.dir _) => .ok (setNode fs loc (.dir mode))
    | _ => .error .ENOENT

/-- Go `os.Create(name)`, that is `open(name, O_RDWR|O_CREATE|O_TRUNC, 0666)`:
follows symbolic links, creates the file or truncates an existing one (whose
mode stays), and returns the location of the open file. -/
def Create (fs : FS) (name : Str) : Except Errno (FS × Loc) :=
  match resolve fs true name with
  | .error e => .error e
  | .ok loc =>
    match fs.nodes loc with
    | none => .ok (setNode fs loc (.file [] (andNot 0o666 fs.umask)), loc)
    | some (.file _ m) => .ok (setNode fs loc (.file [] m), loc)
    | some (.dir _) => .error .EISDIR
    | some (.symlink _) => .error .ELOOP

/-- Go `io.Copy(file, src)` into the file just opened at `loc`: the bytes of
`src` become its content. -/
def Copy (fs : FS) (loc : Loc) (data : List Nat) : FS :=
  match fs.nodes loc with
  | some (.file _ m) => setNode fs loc (.file data m)
  | _ => fs

/-- Go `os.Symlink(oldname, newname)`: creates the link `newname` with the text
`oldname`; fails when `newname` exists. -/
def Symlink (fs : FS) (oldname newname : Str) : Except Errno FS :=
  if oldname = [] then .error .ENOENT
  else
    match resolve fs false newname with
    | .error e => .error e
    | .ok loc =>
      match fs.nodes loc with
      | none => .ok (setNode fs loc (.symlink oldname))
      | some _ => .error .EEXIST

/-- The set-group-ID bit of the directory that holds `loc`: Linux hands it on
to a directory made inside. -/
def inheritedSetgid (fs : FS) (loc : Loc) : Nat :=
  match fs.nodes loc.dropLast with
  | some (.dir m) => m &&& 0o2000
  | _ => 0

/-- Go `os.Mkdir(name, perm)`: the new directory gets the permission and sticky
bits of `perm` that the umask leaves, and the set-group-ID bit of its parent
directory. -/
def Mkdir (fs : FS) (name : Str) (perm : Nat) : Except Errno FS :=
  match resolve fs false name with
  | .error e => .error e
  | .ok loc =>
    match fs.nodes loc with
    | none =>
      .ok (setNode fs loc (.dir (andNot (perm % 0o2000) fs.umask ||| inheritedSetgid fs loc)))
    | some _ => .error .EEXIST

/-- The part `path[:i+1]` that `os.MkdirAll` takes as the parent: trailing
separators and then the last element are cut off. -/
def parentOf (path : Str) : Str :=
  ((path.reverse.dropWhile (fun c => c == '/')).dropWhile (fun c => c != '/')).reverse

/-- Go `os.MkdirAll(path, perm)`, the recursion on the parent bounded by
`fuel`. -/
def MkdirAllFuel : Nat → FS → Str → Nat → Except Errno FS
  | 0, _, _, _ => .error .ELOOP
  | fuel + 1, fs, path, perm =>
    match Stat fs path with
    | .ok (.dir _) => .ok fs
    | .ok _ => .error .ENOTDIR
    | .error _ =>
      match (if parentOf path ≠ [] then MkdirAllFuel fuel fs (parentOf path) perm
             else .ok fs) with
      | .error e => .error e
      | .ok fs1 =>
        match Mkdir fs1 path perm with
        | .ok fs2 => .ok fs2
        | .error e =>
          match Lstat fs1 path with
          | .ok (.dir _) => .ok fs1
          | _ => .error e

/-- Go `os.MkdirAll(path, perm)`: each recursive call is on a shorter path, so
`len(path) + 1` calls are enough. -/
def MkdirAll (fs : FS) (path : Str) (perm : Nat) : Except Errno FS :=
  MkdirAllFuel (path.length + 1) fs path perm

/-! ## Tar entries and the extraction loop (main.go, lines 111-162) -/

/-- The fields of `tar.Header` the program reads. -/
structure Header where
  Typeflag : Char
  Name : Str
  Linkname : Str
  Mode : Nat
deriving DecidableEq

/-- Go `tar.TypeReg`: a regular file. -/
def TypeReg : Char := '0'

/-- Go `tar.TypeLink`: a hard link. -/
def TypeLink : Char := '1'

/-- Go `tar.TypeSymlink`: a symbolic link. -/
def TypeSymlink : Char := '2'

/-- Go `tar.TypeChar`: a character device node. -/
def TypeChar : Char := '3'

/-- Go `tar.TypeBlock`: a block device node. -/
def TypeBlock : Char := '4'

/-- Go `tar.TypeDir`: a directory. -/
def TypeDir : Char := '5'

/-- Go `tar.TypeFifo`: a FIFO node. -/
def TypeFifo : Char := '6'

/-- One entry of a layer archive: the header `tr.Next()` returns and the bytes
`tr` then yields. -/
structure Entry where
  header : Header
  data : List Nat
deriving DecidableEq

/-- The mode `header.FileInfo().Mode()` as `os.Chmod` and `os.MkdirAll` pass it
to the system call: the permission, setuid, setgid and sticky bits, which are
the low twelve bits of the header's mode field. -/
def Header.fileMode (h : Header) : Nat := h.Mode % 4096

/-- The panics of `main`, by the message of the `panic` call. -/
inductive Panic
  | indexOutOfRange
  | failedToCreateDir
  | failedToGetBearerToken
  | failedToDecodeJson
  | nilDereference
  | failedToBuildLayerRequest
  | failedToBuildManifestRequest
  | failedToUncompress
  | failedToExtractTar
  | failedRelative
  | failedSymlink (e : Errno)
  | failedToMkdir (e : Errno)
  | failedToCreate (e : Errno)
  | failedToChmod (e : Errno)
  | failedToClose
  | couldntFindBinary
  | failedToCreateDirectories (e : Errno)
  | failedToCopy (e : Errno)
deriving DecidableEq

/-- The `switch header.Typeflag` of the extraction loop (lines 124-154). -/
def contentStep (path : Str) (fs : FS) (e : Entry) : Except Panic FS :=
  let newPath := Join path e.header.Name
  if e.header.Typeflag = TypeSymlink then
    let absolutePath := Join path e.header.Linkname
    match Rel (Dir newPath) absolutePath with
    | none => .error .failedRelative
    | some relativePath =>
      match Symlink fs relativePath newPath with
      | .error err => .error (.failedSymlink err)
      | .ok fs1 => .ok fs1
  else if e.header.Typeflag = TypeDir then
    match MkdirAll fs newPath e.header.fileMode with
    | .error err => .error (.failedToMkdir err)
    | .ok fs1 => .ok fs1
  else if e.header.Typeflag = TypeReg then
    match Create fs newPath with
    | .error err => .error (.failedToCreate err)
    | .ok (fs1, file) => .ok (Copy fs1 file e.data)
  else .ok fs

/-- The trailing mode step (lines 156-161): `os.Chmod`, whose failure is a
panic unless `os.IsNotExist` holds of it. -/
def applyMode (fs : FS) (newPath : Str) (mode : Nat) : Except Panic FS :=
  match Chmod fs newPath mode with
  | .ok fs1 => .ok fs1
  | .error err => if err = .ENOENT then .ok fs else .error (.failedToChmod err)

/-- One iteration of the extraction loop for the entry `e` (lines 122-161). -/
def processEntry (path : Str) (fs : FS) (e : Entry) : Except Panic FS :=
  match contentStep path fs e with
  | .error p => .error p
  | .ok fs1 => applyMode fs1 (Join path e.header.Name) e.header.fileMode

/-- The extraction loop over the entries `tr.Next()` returns (lines 111-162). -/
def extractEntries (path : Str) : FS → List Entry → Except Panic FS
  | fs, [] => .ok fs
  | fs, e :: es =>
    match processEntry path fs e with
    | .error p => .error p
    | .ok fs1 => extractEntries path fs1 es

/-- The elements of the cleaned form of an absolute path. -/
def cleanLoc (path : Str) : Loc :=
  ((Split path '/').foldl normStep []).reverse

/-- A filesystem in which the destination root `R` is an empty directory: the
directories on the way to `R` exist and nothing else does. -/
def emptyRoot (R : Str) (umask : Nat) : FS :=
  { nodes := fun q =>
      if q = cleanLoc R then some (.dir 0o700)
      else if q.isPrefixOf (cleanLoc R) then some (.dir 0o755)
      else none
    cwd := []
    umask := umask }

/-- Two objects that differ at most in their permission mode. -/
def sameButMode : Option Node → Option Node → Prop
  | none, none => True
  | some (.file c _), some (.file c2 _) => c = c2
  | some (.dir _), some (.dir _) => True
  | some (.symlink t), some (.symlink t2) => t = t2
  | _, _ => False

/-- Whether the cleaned path `p` lies in the directory tree of `root`. -/
def liesInside (root p : Str) : Bool :=
  (pathElems (Clean root)).isPrefixOf (pathElems p)

/-- A destination root as `os.MkdirTemp("", "docker-*")` returns it. -/
def demoRoot : Str := "/tmp/docker-1".toList

/-- A host on which `/etc` and the empty destination root `demoRoot` exist. -/
def hostFS : FS :=
  setNode (emptyRoot demoRoot 0o022) ["etc".toList] (.dir 0o755)

/-- The state `hostFS` with a regular file `x` of mode 0644 in the root. -/
def hostWithX : FS :=
  setNode hostFS ["tmp".toList, "docker-1".toList, "x".toList] (.file [1, 2, 3] 0o644)

/-- Reads an outcome of the extraction at a location. -/
def nodeAt (r : Except Panic FS) (loc : Loc) : Option Node :=
  match r with
  | .ok fs => fs.nodes loc
  | .error _ => none

/-- The panic an outcome of the extraction stands for, if any. -/
def abortOf (r : Except Panic FS) : Option Panic :=
  match r with
  | .ok _ => none
  | .error p => some p

/-- The state `hostFS` with the directories `usr` and `usr/bin` in the root. -/
def hostUsrBin : FS :=
  setNode (setNode hostFS ["tmp".toList, "docker-1".toList, "usr".toList] (.dir 0o755))
    ["tmp".toList, "docker-1".toList, "usr".toList, "bin".toList] (.dir 0o755)

/-- What `os.Stat` reports of a path in an outcome of the extraction. -/
def statAt (r : Except Panic FS) (name : Str) : Option Node :=
  match r with
  | .ok fs =>
    match Stat fs name with
    | .ok n => some n
    | .error _ => none
  | .error _ => none

/-- Nothing or a regular file. -/
def FileOrNone (o : Option Node) : Prop :=
  o = none ∨ ∃ c m, o = some (.file c m)

/-! ## The registry and the layer loop (main.go, lines 63-168) -/

/-- The struct `auth` (lines 20-22). -/
structure auth where
  Token : Str
deriving DecidableEq

/-- The struct `manifestConfig` (lines 29-32). -/
structure manifestConfig where
  MediaType : Str
  Digest : Str
deriving DecidableEq

/-- The struct `manifestLayer` (lines 34-37). -/
structure manifestLayer where
  MediaType : Str
  Digest : Str
deriving DecidableEq

/-- The struct `manifest` (lines 24-27). -/
structure manifest where
  Config : manifestConfig
  Layers : List manifestLayer
deriving DecidableEq

/-- What an HTTP request of the program comes to: `http.NewRequest` rejects the
URL, the transport fails (the response is `nil`), or a response arrives. -/
inductive Fetched (α : Type)
  | badRequest
  | noResponse
  | response (r : α)

/-- The body of a layer-blob response as the loop reads it: whether
`gzip.NewReader` accepts it, the entries `tr.Next()` returns, whether the
archive then ends with `io.EOF`, and whether `res.Body.Close()` succeeds. -/
structure LayerBlob where
  gzip : Bool
  entries : List Entry
  intact : Bool
  closes : Bool

/-- The layer blobs of the registry, by image name, layer (its digest is in the
URL, its media type in the `Accept` header) and bearer token. -/
abbrev BlobStore := Str → manifestLayer → Str → Fetched LayerBlob

/-- The body of the layer loop for one layer (lines 95-167). -/
def pullLayer (blobs : BlobStore) (imgName token path : Str) (fs : FS)
    (layer : manifestLayer) : Except Panic FS :=
  match blobs imgName layer token with
  | .badRequest => .error .failedToBuildLayerRequest
  | .noResponse => .error .nilDereference
  | .response res =>
    if res.gzip = false then .error .failedToUncompress
    else
      match extractEntries path fs res.entries with
      | .error p => .error p
      | .ok fs1 =>
        if res.intact = false then .error .failedToExtractTar
        else if res.closes = false then .error .failedToClose
        else .ok fs1

/-- Whether the loop body sends the blob request of a layer. -/
def blobRequested (blobs : BlobStore) (imgName token : Str) (layer : manifestLayer) : Bool :=
  match blobs imgName layer token with
  | .badRequest => false
  | _ => true

/-- The layer loop `for _, layer := range manifest.Layers` (lines 94-168): the
digests of the blobs requested, in order, and the state reached or the panic
that ended the loop. -/
def pullLayers (blobs : BlobStore) (imgName token path : Str) :
    FS → List manifestLayer → List Str × Except Panic FS
  | fs, [] => ([], .ok fs)
  | fs, layer :: rest =>
    let req := if blobRequested blobs imgName token layer then [layer.Digest] else []
    match pullLayer blobs imgName token path fs layer with
    | .error p => (req, .error p)
    | .ok fs1 =>
      (req ++ (pullLayers blobs imgName token path fs1 rest).1,
        (pullLayers blobs imgName token path fs1 rest).2)

/-- The archive entries of a layer as the registry serves it. -/
def layerEntries (blobs : BlobStore) (imgName token : Str) (layer : manifestLayer) :
    List Entry :=
  match blobs imgName layer token with
  | .response res => res.entries
  | _ => []

/-- A directory. -/
def IsDir (o : Option Node) : Prop := ∃ m, o = some (.dir m)

/-- Not a symbolic link: nothing, a file or a directory. -/
def NotLink (o : Option Node) : Prop := ∀ t, o ≠ some (.symlink t)

/-- What is at a location later, `o2`, goes with what was there before, `o`:
where nothing was anything may be, a file is still a file, a directory still a
directory, and a symbolic link still the same link. -/
def sameKind : Option Node → Option Node → Prop
  | none, _ => True
  | some (.file _ _), some (.file _ _) => True
  | some (.dir _), some (.dir _) => True
  | some (.symlink t), some (.symlink t2) => t = t2
  | _, _ => False

/-- From `fs` to `fs2` every object kept its place and its kind, and the
working directory is the same. -/
def Ext (fs fs2 : FS) : Prop :=
  (∀ q, sameKind (fs.nodes q) (fs2.nodes q)) ∧ fs2.cwd = fs.cwd

/-- From `fs` to `fs2` every object kept its place and its kind, and an object
of `fs` that is not the same in `fs2` is the one the path `p` names in
`fs2`. -/
def Frame (fs fs2 : FS) (p : Str) : Prop :=
  Ext fs fs2 ∧ ∀ q n, fs.nodes q = some n → fs2.nodes q = some n ∨ resolve fs2 true p = .ok q

/-- From `fs` to `fs2` nothing that existed changed and only directories
appeared. -/
def Grow (fs fs2 : FS) : Prop :=
  (∀ q n, fs.nodes q = some n → fs2.nodes q = some n) ∧
    (∀ q, fs.nodes q = none → fs2.nodes q = none ∨ IsDir (fs2.nodes q)) ∧
    fs2.cwd = fs.cwd

/-- What a regular-file or directory entry leaves at its path: a directory
with the entry's mode for a directory entry, a file with the entry's bytes and
mode otherwise. -/
def entryNode (e : Entry) : Node :=
  if e.header.Typeflag = TypeDir then .dir e.header.fileMode
  else .file e.data e.header.fileMode

/-- A layer reference with the given digest. -/
def layerRef (digest : String) : manifestLayer :=
  { MediaType := "application/vnd.docker.image.rootfs.diff.tar.gzip".toList
    Digest := digest.toList }

/-- A store with two layers: the first holds a file `a` and a link `b` to it,
the second a file `a` and a file `b`. -/
def aliasBlobs : BlobStore := fun _ layer _ =>
  if layer.Digest = "sha256:01".toList then
    .response
      { gzip := true
        entries :=
          [⟨⟨TypeReg, "a".toList, [], 0o644⟩, [1]⟩,
           ⟨⟨TypeSymlink, "b".toList, "a".toList, 0o777⟩, []⟩]
        intact := true
        closes := true }
  else if layer.Digest = "sha256:02".toList then
    .response
      { gzip := true
        entries :=
          [⟨⟨TypeReg, "a".toList, [], 0o644⟩, [2]⟩,
           ⟨⟨TypeReg, "b".toList, [], 0o600⟩, [3]⟩]
        intact := true
        closes := true }
  else .noResponse

/-- A store with two layers without links: the first holds the directory `etc`
and the file `etc/motd`, the second the file `etc/motd` again and a file
`etc/issue`. -/
def plainBlobs : BlobStore := fun _ layer _ =>
  if layer.Digest = "sha256:01".toList then
    .response
      { gzip := true
        entries :=
          [⟨⟨TypeDir, "etc/".toList, [], 0o755⟩, []⟩,
           ⟨⟨TypeReg, "etc/motd".toList, [], 0o644⟩, [1]⟩]
        intact := true
        closes := true }
  else if layer.Digest = "sha256:02".toList then
    .response
      { gzip := true
        entries :=
          [⟨⟨TypeReg, "etc/motd".toList, [], 0o600⟩, [2]⟩,
           ⟨⟨TypeReg, "etc/issue".toList, [], 0o644⟩, [3]⟩]
        intact := true
        closes := true }
  else .noResponse

/-- A store with two layers: the first holds the directory `etc`, the file
`etc/motd` and a link `etc/mtab` to `../proc/mounts`, the second the file
`etc/motd` again and a file `etc/issue`. -/
def linkedBlobs : BlobStore := fun _ layer _ =>
  if layer.Digest = "sha256:01".toList then
    .response
      { gzip := true
        entries :=
          [⟨⟨TypeDir, "etc/".toList, [], 0o755⟩, []⟩,
           ⟨⟨TypeReg, "etc/motd".toList, [], 0o644⟩, [1]⟩,
           ⟨⟨TypeSymlink, "etc/mtab".toList, "../proc/mounts".toList, 0o777⟩, []⟩]
        intact := true
        closes := true }
  else if layer.Digest = "sha256:02".toList then
    .response
      { gzip := true
        entries :=
          [⟨⟨TypeReg, "etc/motd".toList, [], 0o600⟩, [2]⟩,
           ⟨⟨TypeReg, "etc/issue".toList, [], 0o644⟩, [3]⟩]
        intact := true
        closes := true }
  else .noResponse

/-- Whether two paths name different objects in an outcome of the extraction:
their resolutions, symbolic links followed, differ. -/
def namedApart (r : Except Panic FS) (a b : Str) : Bool :=
  match r with
  | .error _ => false
  | .ok fs =>
    match resolve fs true a, resolve fs true b with
    | .ok l1, .ok l2 => decide (l1 ≠ l2)
    | .error e1, .error e2 => decide (e1 ≠ e2)
    | _, _ => true

/-- The state `hostFS` with a symbolic link `/tmp/link` to `target` beside the
root. -/
def hostLinked : FS :=
  setNode hostFS ["tmp".toList, "link".toList] (.symlink "target".toList)

/-! ## JSON bodies (package `encoding/json`) -/

/-- A JSON value. -/
inductive Json
  | null
  | bool (b : Bool)
  | num (n : Int)
  | str (s : Str)
  | arr (xs : List Json)
  | obj (members : List (Str × Json))

/-- A response body: not JSON at all, or a JSON value. -/
inductive Body
  | malformed
  | json (v : Json)

/-- An HTTP response as the program uses it. -/
structure Response where
  StatusCode : Nat
  Body : Body

/-- Simple case folding on the letters that can match an ASCII field name:
upper case to lower case, the long s (U+017F) to `s` and the Kelvin sign
(U+212A) to `k`. -/
def foldRune (c : Char) : Char :=
  if 'A' ≤ c ∧ c ≤ 'Z' then Char.ofNat (c.toNat + 32)
  else if c = Char.ofNat 0x17F then 's'
  else if c = Char.ofNat 0x212A then 'k'
  else c

/-- Whether the object key `k` selects the struct field with the JSON name
`field`: `encoding/json` matches keys without regard to case. -/
def keyIs (field : String) (k : Str) : Bool :=
  k.map foldRune == field.toList.map foldRune

/-- Decoding into a `string` field: a JSON string sets it, `null` leaves it,
anything else is an error. -/
def decodeString (old : Str) : Json → Option Str
  | .str s => some s
  | .null => some old
  | _ => none

/-- Decoding the members of an object into a struct, one after the other;
`none` when a member has the wrong type. -/
def decodeMembers {σ : Type} (step : σ → Str → Json → Option σ) :
    σ → List (Str × Json) → Option σ
  | s, [] => some s
  | s, (k, v) :: rest =>
    match step s k v with
    | none => none
    | some s1 => decodeMembers step s1 rest

/-- Decoding into a struct: an object sets the fields its keys name, `null`
leaves the struct, anything else is an error. -/
def decodeStruct {σ : Type} (step : σ → Str → Json → Option σ) (old : σ) : Json → Option σ
  | .obj members => decodeMembers step old members
  | .null => some old
  | _ => none

/-- One member of an object decoded into `auth`: the key `token` sets the
token, other keys are ignored. -/
def authField (a : auth) (k : Str) (v : Json) : Option auth :=
  if keyIs "token" k then (decodeString a.Token v).map fun s => { a with Token := s }
  else some a

/-- One member of an object decoded into `manifestConfig`. -/
def configField (c : manifestConfig) (k : Str) (v : Json) : Option manifestConfig :=
  if keyIs "mediaType" k then (decodeString c.MediaType v).map fun s => { c with MediaType := s }
  else if keyIs "digest" k then (decodeString c.Digest v).map fun s => { c with Digest := s }
  else some c

/-- One member of an object decoded into `manifestLayer`. -/
def layerField (l : manifestLayer) (k : Str) (v : Json) : Option manifestLayer :=
  if keyIs "mediaType" k then (decodeString l.MediaType v).map fun s => { l with MediaType := s }
  else if keyIs "digest" k then (decodeString l.Digest v).map fun s => { l with Digest := s }
  else some l

/-- Decoding the elements of a JSON array into a slice, from index 0 on: each
element is decoded into what the backing array of the slice holds at its
index (`backing`, which may be left over from an earlier, longer decoding) and
into the zero value past it. -/
def decodeLayerList : List manifestLayer → List Json → Option (List manifestLayer)
  | _, [] => some []
  | backing, x :: xs =>
    match decodeStruct layerField (backing.headD ⟨[], []⟩) x with
    | none => none
    | some l =>
      match decodeLayerList backing.tail xs with
      | none => none
      | some ls => some (l :: ls)

/-- The manifest while it is decoded, with the backing array of its slice of
layers: the slice is the front of the array, and what lies behind it comes
back when the slice is decoded into again. -/
structure ManifestDecoding where
  value : manifest
  backing : List manifestLayer

/-- One member of an object decoded into `manifest`: `config` is decoded into
the config struct; `layers` is decoded into the slice of layers, element by
element over its backing array (an empty array makes a new empty slice, `null`
makes it nil); other keys are ignored. -/
def manifestField (d : ManifestDecoding) (k : Str) (v : Json) : Option ManifestDecoding :=
  if keyIs "config" k then
    (decodeStruct configField d.value.Config v).map fun c =>
      { d with value := { d.value with Config := c } }
  else if keyIs "layers" k then
    match v with
    | .arr [] => some { value := { d.value with Layers := [] }, backing := [] }
    | .arr xs =>
      (decodeLayerList d.backing xs).map fun ls =>
        { value := { d.value with Layers := ls }
          backing := ls ++ d.backing.drop ls.length }
    | .null => some { value := { d.value with Layers := [] }, backing := [] }
    | _ => none
  else some d

/-- `json.NewDecoder(res.Body).Decode(data)` for `data := &auth{}` (lines
70-71); `none` stands for a non-nil error. -/
def decodeAuth : Body → Option auth
  | .malformed => none
  | .json v => decodeStruct authField ⟨[]⟩ v

/-- `json.NewDecoder(res.Body).Decode(manifest)` for `manifest := &manifest{}`
(lines 87-88); `none` stands for a non-nil error. -/
def decodeManifest : Body → Option manifest
  | .malformed => none
  | .json v =>
    (decodeStruct manifestField ⟨⟨⟨[], []⟩, []⟩, []⟩ v).map fun d => d.value

/-! ## The run of `main` -/

/-- The registry as the run meets it: the token endpoint by image name
(`none` when `http.Get` returns an error), the manifest endpoint by image
name, tag and token, and the layer blobs. -/
structure Registry where
  token : Str → Option Response
  manifest : Str → Str → Str → Fetched Response
  blobs : BlobStore

/-- How the command ends once `cmd.Run()` is called: it starts and exits with
a code, it starts and is killed by a signal, or it cannot be started. -/
inductive ChildResult
  | exited (code : Nat)
  | signaled
  | startFailed
deriving DecidableEq

/-- What the run finds around it: `os.Args`, the directory `os.MkdirTemp`
returns (`none` for an error), the filesystem once that directory exists, the
registry, `exec.LookPath` and the way the command ends. -/
structure Host where
  args : List Str
  mkdirTemp : Option Str
  fs : FS
  registry : Registry
  lookPath : Str → Option Str
  child : ChildResult

/-- A call registered with `defer`. -/
inductive Deferred
  | removeAll (path : Str)
  | closeBody
deriving DecidableEq

/-- How the body of `main` ends: it returns, it panics, or it calls
`os.Exit`. -/
inductive Ending
  | returned
  | panicked (p : Panic)
  | exited (code : Int)
deriving DecidableEq

/-- A run of the body of `main`: the deferred calls registered (most recent
first), the way the body ends, and the digests of the layer blobs requested. -/
structure Run where
  deferred : List Deferred
  ending : Ending
  requested : List Str
deriving DecidableEq

/-- The deferred calls the Go runtime runs when `main` ends: all of them, most
recent first, on a return and on a panic; none on `os.Exit`. -/
def Run.deferredCalls (r : Run) : List Deferred :=
  match r.ending with
  | .exited _ => []
  | _ => r.deferred

/-- How many times `os.RemoveAll(path)` runs. -/
def Run.removals (r : Run) (path : Str) : Nat :=
  r.deferredCalls.count (.removeAll path)

/-- The exit status of the program: 0 after a return, 2 after a panic, the low
byte of the code given to `os.Exit`. -/
def Run.exitStatus (r : Run) : Nat :=
  match r.ending with
  | .returned => 0
  | .panicked _ => 2
  | .exited code => (code % 256).toNat

/-- `copyFile(src, dest)` (lines 207-226). -/
def copyFile (fs : FS) (src dest : Str) : Except Errno FS :=
  match resolve fs true src with
  | .error e => .error e
  | .ok srcLoc =>
    match fs.nodes srcLoc with
    | none => .error .ENOENT
    | some _ =>
      match Create fs dest with
      | .error e => .error e
      | .ok (fs1, destFile) =>
        match fs1.nodes srcLoc with
        | some (.file data _) => .ok (setNode fs1 destFile (.file data 0o755))
        | _ => .error .EISDIR

/-- Lines 170-186 of `main`: locate the binary, make its directory under the
root and copy it there. -/
def stage (lookPath : Str → Option Str) (path command : Str) (fs : FS) : Except Panic FS :=
  match lookPath command with
  | none => .error .couldntFindBinary
  | some binPath =>
    let destPath := Join path binPath
    match MkdirAll fs (Dir destPath) 0o755 with
    | .error e => .error (.failedToCreateDirectories e)
    | .ok fs1 =>
      match copyFile fs1 binPath destPath with
      | .error e => .error (.failedToCopy e)
      | .ok fs2 => .ok fs2

/-- The state of `main` when it reaches `cmd.Run()`. -/
structure Prepared where
  deferred : List Deferred
  requested : List Str
  fs : FS

/-- Lines 64-74 of `main`: the token request, the deferred close of its body
and the decoding of the token. -/
def authStep (res : Option Response) (d1 : List Deferred) :
    Except Run (List Deferred × auth) :=
  match res with
  | none => .error ⟨d1, .panicked .failedToGetBearerToken, []⟩
  | some res =>
    match decodeAuth res.Body with
    | none => .error ⟨.closeBody :: d1, .panicked .failedToDecodeJson, []⟩
    | some data => .ok (.closeBody :: d1, data)

/-- Lines 77-91 of `main`: the manifest request, the deferred close of its
body (a nil dereference when there is no response) and the decoding of the
manifest.  The status code of the response is not read. -/
def manifestStep (res : Fetched Response) (d2 : List Deferred) :
    Except Run (List Deferred × manifest) :=
  match res with
  | .badRequest => .error ⟨d2, .panicked .failedToBuildManifestRequest, []⟩
  | .noResponse => .error ⟨d2, .panicked .nilDereference, []⟩
  | .response res =>
    match decodeManifest res.Body with
    | none => .error ⟨.closeBody :: d2, .panicked .failedToDecodeJson, []⟩
    | some m => .ok (.closeBody :: d2, m)

/-- Lines 93-192 of `main`: the layer loop and the staging of the binary. -/
def assemble (h : Host) (imgName token path command : Str) (d3 : List Deferred)
    (m : manifest) : Except Run Prepared :=
  match pullLayers h.registry.blobs imgName token path h.fs m.Layers with
  | (req, .error p) => .error ⟨d3, .panicked p, req⟩
  | (req, .ok fs1) =>
    match stage h.lookPath path command fs1 with
    | .error p => .error ⟨d3, .panicked p, req⟩
    | .ok fs2 => .ok ⟨d3, req, fs2⟩

/-- Lines 41-192 of `main`: everything before `cmd.Run()`.  An error is the run
that ends in a panic. -/
def prepare (h : Host) : Except Run Prepared :=
  match h.args with
  | _ :: _ :: image :: command :: _ =>
    let img := parseImage image
    match h.mkdirTemp with
    | none => .error ⟨[], .panicked .failedToCreateDir, []⟩
    | some path =>
      match authStep (h.registry.token img.name) [.removeAll path] with
      | .error r => .error r
      | .ok (d2, data) =>
        match manifestStep (h.registry.manifest img.name img.tag data.Token) d2 with
        | .error r => .error r
        | .ok (d3, m) => assemble h img.name data.Token path command d3 m
  | _ => .error ⟨[], .panicked .indexOutOfRange, []⟩

/-- Lines 194-205 of `main`: `cmd.Run()` returns `nil` when the command exits
with code 0, an `*exec.ExitError` when it exits with another code or is killed
by a signal (`ExitCode()` is then -1), and another error when it cannot be
started. -/
def afterRun (p : Prepared) : ChildResult → Run
  | .exited 0 => ⟨p.deferred, .returned, p.requested⟩
  | .exited code => ⟨p.deferred, .exited (Int.ofNat code), p.requested⟩
  | .signaled => ⟨p.deferred, .exited (-1), p.requested⟩
  | .startFailed => ⟨p.deferred, .exited 0, p.requested⟩

/-- The body of `main`. -/
def mainBody (h : Host) : Run :=
  match prepare h with
  | .error r => r
  | .ok p => afterRun p h.child

/-- The host with the status code of every manifest response set to
`status`. -/
def setManifestStatus (h : Host) (status : Nat) : Host :=
  { h with
    registry :=
      { h.registry with
        manifest := fun name tag token =>
          match h.registry.manifest name tag token with
          | .response r => .response { r with StatusCode := status }
          | .badRequest => .badRequest
          | .noResponse => .noResponse } }

/-- A manifest response with status 404 and the registry error object
`{"errors":[{"code":"MANIFEST_UNKNOWN","message":"manifest unknown"}]}`
as body. -/
def unknownManifest : Response :=
  ⟨404, .json (.obj [("errors".toList,
    .arr [.obj [("code".toList, .str "MANIFEST_UNKNOWN".toList),
      ("message".toList, .str "manifest unknown".toList)]])])⟩

/-- A host with `/bin/echo`, the empty root `/tmp/docker-1` and a registry
that answers the token request and then every manifest request with
`unknownManifest`. -/
def hostUnknownManifest (child : ChildResult) : Host :=
  { args := ["dockerling".toList, "run".toList, "busybox:nope".toList, "/bin/echo".toList,
      "hello".toList]
    mkdirTemp := some demoRoot
    fs := setNode (setNode hostFS ["bin".toList] (.dir 0o755))
      ["bin".toList, "echo".toList] (.file [127, 69, 76, 70] 0o755)
    registry :=
      { token := fun _ => some ⟨200, .json (.obj [("token".toList, .str "t0k".toList)])⟩
        manifest := fun _ _ _ => .response unknownManifest
        blobs := fun _ _ _ => .noResponse }
    lookPath := fun c => if c = "/bin/echo".toList then some c else none
    child := child }

/-- A host with `/bin/echo`, the empty root `/tmp/docker-1` and a registry that
serves `busybox:latest` as the two layers of `plainBlobs`. -/
def hostBusybox (child : ChildResult) : Host :=
  { args := ["dockerling".toList, "run".toList, "busybox".toList, "/bin/echo".toList,
      "hello".toList]
    mkdirTemp := some demoRoot
    fs := setNode (setNode hostFS ["bin".toList] (.dir 0o755))
      ["bin".toList, "echo".toList] (.file [127, 69, 76, 70] 0o755)
    registry :=
      { token := fun _ => some ⟨200, .json (.obj [("token".toList, .str "t0k".toList)])⟩
        manifest := fun _ _ _ =>
          .response ⟨200, .json (.obj
            [("schemaVersion".toList, .num 2),
             ("config".toList, .obj [("mediaType".toList, .str "c".toList),
               ("digest".toList, .str "sha256:00".toList)]),
             ("layers".toList, .arr
               [.obj [("mediaType".toList, .str "l".toList),
                  ("digest".toList, .str "sha256:01".toList)],
                .obj [("mediaType".toList, .str "l".toList),
                  ("digest".toList, .str "sha256:02".toList)]])])⟩
        blobs := plainBlobs }
    lookPath := fun c => if c = "/bin/echo".toList then some c else none
    child := child }

/-- Whether the run reaches `cmd.Run()`. -/
def reachesRun (h : Host) : Bool :=
  match prepare h with
  | .ok _ => true
  | .error _ => false

/-! # Theorems -/

/-! ### Lemmas on `Split` -/

theorem Split_ne_nil (s : Str) (sep : Char) : Split s sep ≠ [] := by
  cases s with
  | nil => simp [Split]
  | cons c cs =>
    simp only [Split]
    split
    · simp
    · split <;> simp

theorem Split_not_mem (s : Str) (sep : Char) (h : sep ∉ s) : Split s sep = [s] := by
  induction s with
  | nil => simp [Split]
  | cons c cs ih =>
    have hc : c ≠ sep := fun e => h (by simp [e])
    have hcs : sep ∉ cs := fun e => h (by simp [e])
    simp [Split, hc, ih hcs]

theorem Split_head (s : Str) (sep : Char) :
    (Split s sep).headD [] = s.takeWhile (fun c => c != sep) := by
  induction s with
  | nil => simp [Split]
  | cons c cs ih =>
    by_cases hc : c = sep
    · simp [Split, hc]
    · have hne := Split_ne_nil cs sep
      simp only [Split, hc, if_false]
      cases hsp : Split cs sep with
      | nil => exact absurd hsp hne
      | cons p ps =>
        rw [hsp] at ih
        simp at ih
        have hb : (c != sep) = true := by simpa using hc
        simp [List.takeWhile_cons, hb, ih]

theorem Split_tail (s : Str) (sep : Char) (h : sep ∈ s) :
    (Split s sep).tail = Split ((s.dropWhile (fun c => c != sep)).drop 1) sep := by
  induction s with
  | nil => simp at h
  | cons c cs ih =>
    by_cases hc : c = sep
    · simp [Split, hc, List.dropWhile]
    · have hmem : sep ∈ cs := by
        rcases List.mem_cons.mp h with e | e
        · exact absurd e.symm hc
        · exact e
      have hne := Split_ne_nil cs sep
      simp only [Split, hc, if_false]
      cases hsp : Split cs sep with
      | nil => exact absurd hsp hne
      | cons p ps =>
        have := ih hmem
        rw [hsp] at this
        have hb : (c != sep) = true := by simpa using hc
        simp [List.dropWhile_cons, hb] at this ⊢
        exact this

theorem Split_length_gt_one (s : Str) (sep : Char) :
    1 < (Split s sep).length ↔ sep ∈ s := by
  induction s with
  | nil => simp [Split]
  | cons c cs ih =>
    by_cases hc : c = sep
    · have hne := Split_ne_nil cs sep
      have : 0 < (Split cs sep).length := List.length_pos.mpr hne
      simp [Split, hc]
      omega
    · have hne := Split_ne_nil cs sep
      simp only [Split, hc, if_false]
      cases hsp : Split cs sep with
      | nil => exact absurd hsp hne
      | cons p ps =>
        rw [hsp] at ih
        have hc2 : ¬ sep = c := fun e => hc e.symm
        simp [hc2] at ih ⊢
        exact ih

/-! ### C1 -/

/-- C1 (as stated, refuted): for the argument `a:b:c` the code resolves the
tag `b`, not the whole suffix `b:c` after the first colon. -/
theorem parseImage_two_colons :
    (parseImage "a:b:c".toList).tag = "b".toList ∧
    (parseImage "a:b:c".toList).tag ≠ afterFirstColon "a:b:c".toList := by
  decide

/-- C1 (amended): for every argument `s`, the name is the prefix of `s` before
its first colon (all of `s` when there is none); the tag is `latest` when `s`
has no colon and otherwise the part of `s` between its first colon and the
next colon, if any, which is the whole suffix after the first colon exactly
when that suffix has no further colon. -/
theorem parseImage_spec (s : Str) :
    (parseImage s).name = s.takeWhile (fun c => c != ':') ∧
    (parseImage s).tag =
      (if ':' ∈ s then (afterFirstColon s).takeWhile (fun c => c != ':')
       else "latest".toList) ∧
    (':' ∉ s → (parseImage s).name = s ∧ (parseImage s).tag = "latest".toList) ∧
    (':' ∈ s → ':' ∉ afterFirstColon s → (parseImage s).tag = afterFirstColon s) := by
  have hname : (parseImage s).name = s.takeWhile (fun c => c != ':') := by
    simp only [parseImage]
    exact Split_head s ':'
  have htag : (parseImage s).tag =
      (if ':' ∈ s then (afterFirstColon s).takeWhile (fun c => c != ':')
       else "latest".toList) := by
    simp only [parseImage]
    by_cases h : ':' ∈ s
    · have hl := (Split_length_gt_one s ':').mpr h
      have ht := Split_tail s ':' h
      rw [if_pos hl, if_pos h]
      have hd := Split_head (afterFirstColon s) ':'
      rw [afterFirstColon] at hd ⊢
      rw [← ht] at hd
      rw [← hd]
      cases hsp : Split s ':' with
      | nil => exact absurd hsp (Split_ne_nil s ':')
      | cons p ps => cases ps <;> simp
    · have hl : ¬ 1 < (Split s ':').length := fun e => h ((Split_length_gt_one s ':').mp e)
      rw [if_neg hl, if_neg h]
  refine ⟨hname, htag, ?_, ?_⟩
  · intro h
    refine ⟨?_, ?_⟩
    · rw [hname]
      apply List.takeWhile_eq_self_iff.mpr
      intro c hc
      have : c ≠ ':' := fun e => h (e ▸ hc)
      simpa using this
    · rw [htag, if_neg h]
  · intro h h2
    rw [htag, if_pos h]
    apply List.takeWhile_eq_self_iff.mpr
    intro c hc
    have : c ≠ ':' := fun e => h2 (e ▸ hc)
    simpa using this

/-- Witness for `parseImage_spec` at the argument `busybox:1.36`. -/
theorem parseImage_spec_witness :
    (parseImage "busybox:1.36".toList).name = "busybox".toList ∧
    (parseImage "busybox:1.36".toList).tag = "1.36".toList := by
  have h := parseImage_spec "busybox:1.36".toList
  refine ⟨?_, ?_⟩
  · rw [h.1]; decide
  · rw [h.2.2.2 (by decide) (by decide)]; decide

theorem Split_append_sep (a b : Str) (sep : Char) :
    Split (a ++ sep :: b) sep = Split a sep ++ Split b sep := by
  induction a with
  | nil => simp [Split]
  | cons c cs ih =>
    by_cases hc : c = sep
    · simp [Split, hc, ih]
    · simp only [List.cons_append, Split, hc, if_false]
      have ih2 : Split (cs.append (sep :: b)) sep = Split cs sep ++ Split b sep := ih
      rw [ih2]
      cases hsp : Split cs sep with
      | nil => exact absurd hsp (Split_ne_nil cs sep)
      | cons p ps => simp

theorem Split_mem_not_sep (s : Str) (sep : Char) :
    ∀ e ∈ Split s sep, sep ∉ e := by
  induction s with
  | nil => simp [Split]
  | cons c cs ih =>
    by_cases hc : c = sep
    · simp only [Split, hc, if_true]
      intro e he
      rcases List.mem_cons.mp he with h | h
      · simp [h]
      · exact ih e h
    · simp only [Split, hc, if_false]
      cases hsp : Split cs sep with
      | nil => exact absurd hsp (Split_ne_nil cs sep)
      | cons p ps =>
        rw [hsp] at ih
        intro e he
        rcases List.mem_cons.mp he with h | h
        · subst h
          have hp := ih p (by simp)
          intro hm
          rcases List.mem_cons.mp hm with h1 | h1
          · exact hc h1.symm
          · exact hp h1
        · exact ih e (by simp [h])

theorem joinSep_cons (e : Str) (es : List Str) (h : es ≠ []) :
    joinSep (e :: es) = e ++ '/' :: joinSep es := by
  cases es with
  | nil => exact absurd rfl h
  | cons e2 es => simp [joinSep]

theorem joinSep_append (a b : List Str) (ha : a ≠ []) (hb : b ≠ []) :
    joinSep (a ++ b) = joinSep a ++ '/' :: joinSep b := by
  induction a with
  | nil => exact absurd rfl ha
  | cons e es ih =>
    by_cases hes : es = []
    · subst hes
      simp [joinSep_cons _ _ hb, joinSep]
    · have h1 : es ++ b ≠ [] := by simp [hes]
      rw [List.cons_append, joinSep_cons _ _ h1, joinSep_cons _ _ hes, ih hes]
      simp

theorem Split_joinSep (es : List Str) (hne : es ≠ []) (h : ∀ e ∈ es, '/' ∉ e) :
    Split (joinSep es) '/' = es := by
  induction es with
  | nil => exact absurd rfl hne
  | cons e es ih =>
    have he : '/' ∉ e := h e (by simp)
    by_cases hes : es = []
    · subst hes
      simpa [joinSep] using Split_not_mem e '/' he
    · rw [joinSep_cons _ _ hes, Split_append_sep, Split_not_mem e '/' he,
        ih hes (fun x hx => h x (by simp [hx]))]
      simp

theorem Split_render (cs : List Str) (h : ∀ e ∈ cs, '/' ∉ e) :
    Split (render cs) '/' = [] :: (if cs = [] then [[]] else cs) := by
  have : render cs = [] ++ '/' :: joinSep cs := rfl
  rw [this, Split_append_sep]
  by_cases hcs : cs = []
  · subst hcs
    simp [Split, joinSep]
  · rw [Split_joinSep cs hcs h]
    simp [Split, hcs]

/-! ### `Clean` on rooted paths -/

theorem cleanStep_rooted (out : List Str) (e : Str) :
    cleanStep true { out := out, dotdot := 0 } e = { out := normStep out e, dotdot := 0 } := by
  unfold cleanStep normStep
  by_cases h1 : e = [] ∨ e = ['.']
  · simp [h1]
  · by_cases h2 : e = ['.', '.']
    · cases out <;> simp [h2]
    · simp [h1, h2]

theorem foldl_cleanStep_rooted (es : List Str) (out : List Str) :
    es.foldl (cleanStep true) { out := out, dotdot := 0 } =
      { out := es.foldl normStep out, dotdot := 0 } := by
  induction es generalizing out with
  | nil => rfl
  | cons e es ih => simp only [List.foldl_cons, cleanStep_rooted, ih]

theorem Clean_rooted (rest : Str) :
    Clean ('/' :: rest) = render ((Split ('/' :: rest) '/').foldl normStep []).reverse := by
  simp [Clean, foldl_cleanStep_rooted, render]

theorem normStep_proper (out : List Str) (e : Str) (h : Proper e) :
    normStep out e = e :: out := by
  simp [normStep, h.1, h.2.1, h.2.2.1]

theorem foldl_normStep_proper (es out : List Str) (h : ∀ e ∈ es, Proper e) :
    es.foldl normStep out = es.reverse ++ out := by
  induction es generalizing out with
  | nil => rfl
  | cons e es ih =>
    rw [List.foldl_cons, normStep_proper out e (h e (by simp)),
      ih _ (fun x hx => h x (by simp [hx]))]
    simp

theorem foldl_normStep_ups (k : Nat) (out : List Str) :
    (List.replicate k ['.', '.']).foldl normStep out = out.drop k := by
  induction k generalizing out with
  | zero => simp
  | succ k ih =>
    rw [List.replicate_succ, List.foldl_cons, ih]
    cases out <;> simp [normStep]

theorem normStep_keeps_proper (out : List Str) (e : Str) (he : '/' ∉ e)
    (h : ∀ x ∈ out, Proper x) : ∀ x ∈ normStep out e, Proper x := by
  unfold normStep
  by_cases h1 : e = [] ∨ e = ['.']
  · simpa [h1] using h
  · by_cases h2 : e = ['.', '.']
    · simp only [h1, h2, if_false, if_true]
      intro x hx
      exact h x (List.mem_of_mem_tail hx)
    · simp only [h1, h2, if_false]
      intro x hx
      rcases List.mem_cons.mp hx with hx | hx
      · subst hx
        exact ⟨fun e0 => h1 (Or.inl e0), fun e0 => h1 (Or.inr e0), h2, he⟩
      · exact h x hx

theorem foldl_normStep_keeps_proper (es out : List Str) (hes : ∀ e ∈ es, '/' ∉ e)
    (h : ∀ x ∈ out, Proper x) : ∀ x ∈ es.foldl normStep out, Proper x := by
  induction es generalizing out with
  | nil => simpa using h
  | cons e es ih =>
    rw [List.foldl_cons]
    exact ih _ (fun x hx => hes x (by simp [hx]))
      (normStep_keeps_proper out e (hes e (by simp)) h)

theorem joinElems_proper (R n : Str) : ∀ x ∈ joinElems R n, Proper x := by
  unfold joinElems
  apply foldl_normStep_keeps_proper _ _ (Split_mem_not_sep n '/')
  apply foldl_normStep_keeps_proper _ _ (Split_mem_not_sep R '/')
  simp

theorem Join_abs (R n : Str) (hR : IsAbs R = true) :
    Join R n = render (joinElems R n).reverse := by
  cases R with
  | nil => simp [IsAbs] at hR
  | cons c R' =>
    have hc : c = '/' := by simpa [IsAbs] using hR
    subst hc
    have h1 : Join ('/' :: R') n = Clean ('/' :: (R' ++ '/' :: n)) := by simp [Join]
    rw [h1, Clean_rooted]
    have h2 : '/' :: (R' ++ '/' :: n) = ('/' :: R') ++ '/' :: n := rfl
    rw [h2, Split_append_sep, List.foldl_append]
    rfl

theorem properOf_no_sep (cs : List Str) (h : ∀ x ∈ cs, Proper x) : ∀ e ∈ cs, '/' ∉ e :=
  fun e he => (h e he).2.2.2

theorem foldl_normStep_render (ds : List Str) (h : ∀ x ∈ ds, Proper x) :
    (Split (render ds) '/').foldl normStep [] = ds.reverse := by
  rw [Split_render ds (properOf_no_sep ds h)]
  by_cases hds : ds = []
  · subst hds
    simp [normStep]
  · simp only [hds, if_false, List.foldl_cons]
    have : normStep [] [] = [] := by simp [normStep]
    rw [this, foldl_normStep_proper ds [] h]
    simp

theorem Join_render (ds : List Str) (x : Str) (h : ∀ e ∈ ds, Proper e) :
    Join (render ds) x = render ((Split x '/').foldl normStep ds.reverse).reverse := by
  rw [Join_abs (render ds) x (by simp [IsAbs, render])]
  unfold joinElems
  rw [foldl_normStep_render ds h]

theorem Clean_render (ds : List Str) (h : ∀ e ∈ ds, Proper e) :
    Clean (render ds) = render ds := by
  have : render ds = '/' :: joinSep ds := rfl
  rw [this, Clean_rooted, ← this, foldl_normStep_render ds h]
  simp

/-! ### `Dir` and `Rel` on cleaned absolute paths -/

theorem dirPrefix_append (s e : Str) (he : '/' ∉ e) :
    ((s ++ '/' :: e).reverse.dropWhile (fun c => c != '/')).reverse = s ++ ['/'] := by
  have h1 : (s ++ '/' :: e).reverse = e.reverse ++ ('/' :: s.reverse) := by simp
  have h2 : ∀ (l : List Char) (r : List Char), (∀ c ∈ l, c ≠ '/') →
      (l ++ '/' :: r).dropWhile (fun c => c != '/') = '/' :: r := by
    intro l r hl
    induction l with
    | nil => simp [List.dropWhile]
    | cons c l ih =>
      have hc : (c != '/') = true := by simpa using hl c (by simp)
      simp only [List.cons_append, List.dropWhile_cons, hc, if_true]
      exact ih (fun x hx => hl x (by simp [hx]))
  rw [h1, h2 e.reverse s.reverse]
  · simp
  · intro c hc e0
    subst e0
    exact he (by simpa using hc)

theorem Dir_render (cs : List Str) (h : ∀ e ∈ cs, Proper e) :
    Dir (render cs) = render cs.dropLast := by
  rcases List.eq_nil_or_concat cs with hcs | ⟨ds, e, hcs⟩
  · subst hcs
    decide
  · rw [List.concat_eq_append] at hcs
    subst hcs
    have he : '/' ∉ e := (h e (by simp)).2.2.2
    have hds : ∀ x ∈ ds, Proper x := fun x hx => h x (by simp [hx])
    rw [List.dropLast_concat]
    by_cases hd : ds = []
    · subst hd
      have h0 : render ([] ++ [e]) = [] ++ '/' :: e := by simp [render, joinSep]
      unfold Dir
      rw [h0, dirPrefix_append [] e he]
      decide
    · have h0 : render (ds ++ [e]) = render ds ++ '/' :: e := by
        simp [render, joinSep_append ds [e] hd (by simp), joinSep]
      unfold Dir
      rw [h0, dirPrefix_append _ e he]
      have h1 : Clean (render ds ++ ['/']) = Join (render ds) [] := by
        simp [Join, render]
      rw [h1, Join_render ds [] hds]
      simp [Split, normStep]

theorem render_injective (bs ts : List Str) (hb : ∀ e ∈ bs, Proper e)
    (ht : ∀ e ∈ ts, Proper e) (h : render ts = render bs) : ts = bs := by
  have h1 := Split_render bs (properOf_no_sep bs hb)
  have h2 := Split_render ts (properOf_no_sep ts ht)
  rw [h, h1] at h2
  have h3 : (if bs = [] then [[]] else bs) = (if ts = [] then [[]] else ts) := by
    simpa using h2
  by_cases hbs : bs = [] <;> by_cases hts : ts = []
  · rw [hbs, hts]
  · simp only [hbs, hts, if_true, if_false] at h3
    have := (ht [] (by rw [← h3]; simp)).1
    exact absurd rfl this
  · simp only [hbs, hts, if_true, if_false] at h3
    have := (hb [] (by rw [h3]; simp)).1
    exact absurd rfl this
  · simp only [hbs, hts, if_false] at h3
    exact h3.symm

theorem getLast_render (bs : List Str) (hb : ∀ e ∈ bs, Proper e) (hne : bs ≠ []) :
    (render bs).getLast? ≠ some '/' := by
  rcases List.eq_nil_or_concat bs with hcs | ⟨ds, e, hcs⟩
  · exact absurd hcs hne
  · rw [List.concat_eq_append] at hcs
    subst hcs
    have hp := hb e (by simp)
    rcases List.eq_nil_or_concat e with he | ⟨e1, c, he⟩
    · exact absurd he hp.1
    · rw [List.concat_eq_append] at he
      have hc : c ≠ '/' := by
        intro e0
        apply hp.2.2.2
        rw [he, e0]
        simp
      have : ∃ pre, render (ds ++ [e]) = pre ++ [c] := by
        by_cases hd : ds = []
        · subst hd
          exact ⟨'/' :: e1, by simp [render, joinSep, he]⟩
        · exact ⟨'/' :: (joinSep ds ++ '/' :: e1), by
            rw [render, joinSep_append ds [e] hd (by simp), he]
            simp [joinSep]⟩
      obtain ⟨pre, hpre⟩ := this
      rw [hpre]
      simp
      exact fun e0 => hc e0

theorem relElems_render (bs : List Str) (hb : ∀ e ∈ bs, Proper e) :
    relElems (render bs) = [] :: bs := by
  by_cases hbs : bs = []
  · subst hbs
    decide
  · have h1 := getLast_render bs hb hbs
    have h2 : render bs ≠ [] := by simp [render]
    simp only [relElems, h2, h1, if_false]
    rw [Split_render bs (properOf_no_sep bs hb)]
    simp [hbs]

theorem relLoop_spec (bs ts : List Str) :
    ∃ common, bs = common ++ (relLoop bs ts).1 ∧ ts = common ++ (relLoop bs ts).2.1 ∧
      ((relLoop bs ts).2.2 = [] ∨ (relLoop bs ts).2.2 ∈ bs) := by
  induction bs generalizing ts with
  | nil => exact ⟨[], by cases ts <;> simp [relLoop]⟩
  | cons b bs ih =>
    cases ts with
    | nil => exact ⟨[], by simp [relLoop]⟩
    | cons t ts =>
      by_cases htb : t = b
      · subst htb
        obtain ⟨common, h1, h2, h3⟩ := ih ts
        refine ⟨t :: common, ?_, ?_, ?_⟩
        · simp only [relLoop, if_true, List.cons_append]
          rw [← h1]
        · simp only [relLoop, if_true, List.cons_append]
          rw [← h2]
        · simp only [relLoop, if_true]
          rcases h3 with h3 | h3
          · exact Or.inl h3
          · exact Or.inr (List.mem_cons_of_mem _ h3)
      · exact ⟨[], by simp [relLoop, htb]⟩

theorem Rel_render (bs ts : List Str) (hb : ∀ e ∈ bs, Proper e) (ht : ∀ e ∈ ts, Proper e) :
    ∃ common bs1 ts1, bs = common ++ bs1 ∧ ts = common ++ ts1 ∧
      Rel (render bs) (render ts) = some (relText bs1 ts1) := by
  by_cases heq : render ts = render bs
  · have := render_injective bs ts hb ht heq
    subst this
    refine ⟨ts, [], [], by simp, by simp, ?_⟩
    simp [Rel, Clean_render ts ht, relText]
  · obtain ⟨common, h1, h2, h3⟩ := relLoop_spec bs ts
    refine ⟨common, (relLoop bs ts).1, (relLoop bs ts).2.1, h1, h2, ?_⟩
    have hstop : (relLoop bs ts).2.2 ≠ ['.', '.'] := by
      rcases h3 with h3 | h3
      · rw [h3]; simp
      · exact (hb _ h3).2.2.1
    have hdot : render bs ≠ ['.'] := by simp [render]
    have hloop : relLoop ([] :: bs) ([] :: ts) = relLoop bs ts := by simp [relLoop]
    have hne : ¬ ((relLoop bs ts).1 = [] ∧ (relLoop bs ts).2.1 = []) := by
      rintro ⟨e1, e2⟩
      apply heq
      rw [e1] at h1
      rw [e2] at h2
      have : ts = bs := h2.trans h1.symm
      rw [this]
    unfold Rel
    simp only [Clean_render bs hb, Clean_render ts ht, heq, hdot, if_false,
      relElems_render bs hb, relElems_render ts ht, hloop]
    have hsl : ((render bs).head? == some '/') = ((render ts).head? == some '/') := by
      simp [render]
    simp only [hsl, bne_self_eq_false, Bool.false_eq_true, if_false, hstop]
    unfold relText
    rw [if_neg hne]
    by_cases hb1 : (relLoop bs ts).1 = []
    · simp [hb1]
    · have hmap : List.map (fun _ => ['.', '.']) (relLoop bs ts).1 =
          List.replicate (relLoop bs ts).1.length ['.', '.'] := by
        simp [List.map_const']
      simp only [ne_eq, hb1, not_false_eq_true, if_true, hmap]
      have hrep : List.replicate (relLoop bs ts).1.length ['.', '.'] ≠ [] := by
        simpa using hb1
      by_cases ht1 : (relLoop bs ts).2.1 = []
      · simp [ht1]
      · simp only [ht1, not_false_eq_true, if_true]
        rw [joinSep_append _ _ hrep ht1]

theorem Join_relText (common bs1 ts1 : List Str)
    (hb : ∀ e ∈ common ++ bs1, Proper e) (ht : ∀ e ∈ common ++ ts1, Proper e) :
    Join (render (common ++ bs1)) (relText bs1 ts1) = render (common ++ ts1) := by
  rw [Join_render _ _ hb]
  unfold relText
  by_cases h0 : bs1 = [] ∧ ts1 = []
  · rw [if_pos h0, h0.1, h0.2]
    simp [Split, normStep]
  · rw [if_neg h0]
    have hne : List.replicate bs1.length ['.', '.'] ++ ts1 ≠ [] := by
      intro e0
      apply h0
      have := List.append_eq_nil.mp e0
      exact ⟨by simpa using this.1, this.2⟩
    have hsep : ∀ e ∈ List.replicate bs1.length ['.', '.'] ++ ts1, '/' ∉ e := by
      intro e he
      rcases List.mem_append.mp he with h | h
      · rw [(List.mem_replicate.mp h).2]; decide
      · exact (ht e (by simp [h])).2.2.2
    rw [Split_joinSep _ hne hsep, List.foldl_append, foldl_normStep_ups,
      foldl_normStep_proper ts1 _ (fun e he => ht e (by simp [he]))]
    simp

theorem relText_not_abs (bs1 ts1 : List Str) (ht : ∀ e ∈ ts1, Proper e) :
    IsAbs (relText bs1 ts1) = false := by
  unfold relText
  by_cases h0 : bs1 = [] ∧ ts1 = []
  · rw [if_pos h0]; decide
  · rw [if_neg h0]
    cases bs1 with
    | nil =>
      cases ts1 with
      | nil => exact absurd ⟨rfl, rfl⟩ h0
      | cons t ts =>
        have hp := ht t (by simp)
        cases t with
        | nil => exact absurd rfl hp.1
        | cons c t =>
          have hc : c ≠ '/' := fun e0 => hp.2.2.2 (by simp [e0])
          cases ts <;> simp [IsAbs, joinSep, hc]
    | cons b bs =>
      cases h : List.replicate bs.length ['.', '.'] ++ ts1 with
      | nil => simp [IsAbs, List.replicate_succ, h, joinSep]
      | cons x xs => simp [IsAbs, List.replicate_succ, h, joinSep]

/-! ### Path resolution is stable when a file appears or is rewritten -/

theorem setNode_nodes_self (fs : FS) (loc : Loc) (n : Node) :
    (setNode fs loc n).nodes loc = some n := by
  simp [setNode]

theorem setNode_nodes_ne (fs : FS) (loc q : Loc) (n : Node) (h : q ≠ loc) :
    (setNode fs loc n).nodes q = fs.nodes q := by
  simp [setNode, h]

theorem walkAux_setFile (fs : FS) (fl : Bool) (loc : Loc) (c : List Nat) (m : Nat)
    (hold : FileOrNone (fs.nodes loc))
    (follow follow2 : Loc → List Str → Except Errno Loc)
    (hf : ∀ cur rest r, follow cur rest = .ok r → follow2 cur rest = .ok r) :
    ∀ rest cur r, walkAux fs fl follow cur rest = .ok r →
      walkAux (setNode fs loc (.file c m)) fl follow2 cur rest = .ok r := by
  intro rest
  induction rest with
  | nil => intro cur r h; simpa [walkAux] using h
  | cons e rest ih =>
    intro cur r h
    rw [walkAux] at h ⊢
    by_cases he : e = ['.', '.']
    · rw [if_pos he] at h ⊢
      exact ih _ _ h
    · rw [if_neg he] at h ⊢
      by_cases hl : cur ++ [e] = loc
      · have hs : (setNode fs loc (.file c m)).nodes (cur ++ [e]) = some (.file c m) := by
          rw [hl]; exact setNode_nodes_self _ _ _
        rw [hs]
        rcases hold with h0 | ⟨c0, m0, h0⟩
        · rw [hl, h0] at h
          by_cases hr : rest = []
          · simpa [hr, hl] using h
          · simp [hr] at h
        · rw [hl, h0] at h
          by_cases hr : rest = []
          · simpa [hr, hl] using h
          · simp [hr] at h
      · rw [setNode_nodes_ne fs loc _ _ hl]
        cases hn : fs.nodes (cur ++ [e]) with
        | none => rw [hn] at h; exact h
        | some n =>
          rw [hn] at h
          cases n with
          | file c1 m1 => exact h
          | dir m1 => exact ih _ _ h
          | symlink t =>
            simp only at h ⊢
            by_cases hc : rest = [] ∧ fl = false
            · rw [if_pos hc] at h ⊢; exact h
            · rw [if_neg hc] at h ⊢; exact hf _ _ _ h

theorem walk_setFile (fs : FS) (fl : Bool) (loc : Loc) (c : List Nat) (m : Nat)
    (hold : FileOrNone (fs.nodes loc)) :
    ∀ n cur rest r, walk fs fl n cur rest = .ok r →
      walk (setNode fs loc (.file c m)) fl n cur rest = .ok r := by
  intro n
  induction n with
  | zero => intro cur rest r h; simp [walk] at h
  | succ n ih =>
    intro cur rest r h
    rw [walk] at h ⊢
    exact walkAux_setFile fs fl loc c m hold _ _ ih rest cur r h

theorem resolve_setFile (fs : FS) (fl : Bool) (loc : Loc) (c : List Nat) (m : Nat)
    (hold : FileOrNone (fs.nodes loc)) (path : Str) (r : Loc)
    (h : resolve fs fl path = .ok r) :
    resolve (setNode fs loc (.file c m)) fl path = .ok r := by
  unfold resolve at h ⊢
  by_cases hp : path = []
  · simp [hp] at h
  · rw [if_neg hp] at h ⊢
    exact walk_setFile fs fl loc c m hold _ _ _ _ h

theorem Create_ok (fs fs1 : FS) (name : Str) (loc : Loc) (h : Create fs name = .ok (fs1, loc)) :
    resolve fs true name = .ok loc ∧ FileOrNone (fs.nodes loc) ∧
      ∃ m0, fs1 = setNode fs loc (.file [] m0) := by
  unfold Create at h
  cases hr : resolve fs true name with
  | error e => simp [hr] at h
  | ok l =>
    rw [hr] at h
    dsimp only at h
    cases hn : fs.nodes l with
    | none =>
      rw [hn] at h
      simp only [Except.ok.injEq, Prod.mk.injEq] at h
      obtain ⟨h1, h2⟩ := h
      subst h2
      exact ⟨rfl, Or.inl hn, _, h1.symm⟩
    | some n =>
      rw [hn] at h
      cases n with
      | file c m =>
        simp only [Except.ok.injEq, Prod.mk.injEq] at h
        obtain ⟨h1, h2⟩ := h
        subst h2
        exact ⟨rfl, Or.inr ⟨c, m, hn⟩, _, h1.symm⟩
      | dir m => simp at h
      | symlink t => simp at h

/-- After `os.Create(name)` and `io.Copy` the name resolves to the file
written, which holds the copied bytes. -/
theorem Create_Copy_ok (fs fs1 : FS) (name : Str) (loc : Loc) (data : List Nat)
    (h : Create fs name = .ok (fs1, loc)) :
    ∃ m0, Copy fs1 loc data = setNode fs1 loc (.file data m0) ∧
      fs1 = setNode fs loc (.file [] m0) ∧
      resolve (Copy fs1 loc data) true name = .ok loc := by
  obtain ⟨hr, hold, m0, hfs1⟩ := Create_ok fs fs1 name loc h
  have hn1 : fs1.nodes loc = some (.file [] m0) := by rw [hfs1]; exact setNode_nodes_self _ _ _
  have hcopy : Copy fs1 loc data = setNode fs1 loc (.file data m0) := by
    simp [Copy, hn1]
  refine ⟨m0, hcopy, hfs1, ?_⟩
  rw [hcopy]
  apply resolve_setFile fs1 true loc data m0 (Or.inr ⟨[], m0, hn1⟩)
  rw [hfs1]
  exact resolve_setFile fs true loc [] m0 hold name loc hr

/-! ### The uniform mode step -/

theorem Chmod_ok (fs fs2 : FS) (name : Str) (mode : Nat) (h : Chmod fs name mode = .ok fs2) :
    ∃ loc, resolve fs true name = .ok loc ∧
      ((∃ c m0, fs.nodes loc = some (.file c m0) ∧ fs2 = setNode fs loc (.file c mode)) ∨
       (∃ m0, fs.nodes loc = some (.dir m0) ∧ fs2 = setNode fs loc (.dir mode))) := by
  unfold Chmod at h
  cases hr : resolve fs true name with
  | error e => simp [hr] at h
  | ok l =>
    rw [hr] at h
    dsimp only at h
    refine ⟨l, rfl, ?_⟩
    cases hn : fs.nodes l with
    | none => rw [hn] at h; simp at h
    | some n =>
      rw [hn] at h
      cases n with
      | file c m =>
        simp only [Except.ok.injEq] at h
        exact Or.inl ⟨c, m, rfl, h.symm⟩
      | dir m =>
        simp only [Except.ok.injEq] at h
        exact Or.inr ⟨m, rfl, h.symm⟩
      | symlink t => simp at h

theorem Chmod_sameButMode (fs fs2 : FS) (name : Str) (mode : Nat)
    (h : Chmod fs name mode = .ok fs2) : ∀ q, sameButMode (fs.nodes q) (fs2.nodes q) := by
  obtain ⟨loc, _, hcase⟩ := Chmod_ok fs fs2 name mode h
  intro q
  have hrefl : ∀ o : Option Node, sameButMode o o := by
    intro o
    cases o with
    | none => trivial
    | some n => cases n <;> simp [sameButMode]
  by_cases hq : q = loc
  · subst hq
    rcases hcase with ⟨c, m0, h1, h2⟩ | ⟨m0, h1, h2⟩
    · rw [h2, setNode_nodes_self, h1]; simp [sameButMode]
    · rw [h2, setNode_nodes_self, h1]; simp [sameButMode]
  · rcases hcase with ⟨c, m0, _, h2⟩ | ⟨m0, _, h2⟩
    · rw [h2, setNode_nodes_ne _ _ _ _ hq]; exact hrefl _
    · rw [h2, setNode_nodes_ne _ _ _ _ hq]; exact hrefl _

theorem applyMode_ok (fs fs2 : FS) (name : Str) (mode : Nat)
    (h : applyMode fs name mode = .ok fs2) :
    Chmod fs name mode = .ok fs2 ∨ (Chmod fs name mode = .error .ENOENT ∧ fs2 = fs) := by
  unfold applyMode at h
  cases hc : Chmod fs name mode with
  | ok fs1 =>
    rw [hc] at h
    simp only [Except.ok.injEq] at h
    exact Or.inl (by rw [h])
  | error err =>
    rw [hc] at h
    dsimp only at h
    by_cases he : err = .ENOENT
    · rw [if_pos he] at h
      simp only [Except.ok.injEq] at h
      exact Or.inr ⟨by rw [he], h.symm⟩
    · rw [if_neg he] at h
      simp at h

theorem applyMode_error_iff (fs : FS) (name : Str) (mode : Nat) :
    (∃ p, applyMode fs name mode = .error p) ↔
      ∃ err, Chmod fs name mode = .error err ∧ err ≠ .ENOENT := by
  unfold applyMode
  cases hc : Chmod fs name mode with
  | ok fs1 => simp
  | error err =>
    by_cases he : err = .ENOENT
    · simp [he]
    · simp [he]

theorem contentStep_reg (path : Str) (fs fs1 : FS) (e : Entry)
    (ht : e.header.Typeflag = TypeReg) (h : contentStep path fs e = .ok fs1) :
    ∃ fs0 loc, Create fs (Join path e.header.Name) = .ok (fs0, loc) ∧
      fs1 = Copy fs0 loc e.data := by
  unfold contentStep at h
  rw [ht, if_neg (by decide), if_neg (by decide), if_pos rfl] at h
  cases hc : Create fs (Join path e.header.Name) with
  | error err => rw [hc] at h; simp at h
  | ok r =>
    obtain ⟨fs0, loc⟩ := r
    rw [hc] at h
    simp only [Except.ok.injEq] at h
    exact ⟨fs0, loc, rfl, h.symm⟩

theorem processEntry_reg_ok (path : Str) (fs fs1 : FS) (e : Entry)
    (ht : e.header.Typeflag = TypeReg) (hc : contentStep path fs e = .ok fs1) :
    ∃ loc m0, resolve fs true (Join path e.header.Name) = .ok loc ∧
      FileOrNone (fs.nodes loc) ∧
      resolve fs1 true (Join path e.header.Name) = .ok loc ∧
      fs1.nodes loc = some (.file e.data m0) ∧
      Chmod fs1 (Join path e.header.Name) e.header.fileMode =
        .ok (setNode fs1 loc (.file e.data e.header.fileMode)) ∧
      processEntry path fs e = .ok (setNode fs1 loc (.file e.data e.header.fileMode)) := by
  obtain ⟨fs0, loc, hcr, hfs1⟩ := contentStep_reg path fs fs1 e ht hc
  obtain ⟨m0, hcopy, _, hres⟩ := Create_Copy_ok fs fs0 _ loc e.data hcr
  obtain ⟨hres0, hold, _⟩ := Create_ok fs fs0 _ loc hcr
  have hnode : fs1.nodes loc = some (.file e.data m0) := by
    rw [hfs1, hcopy]; exact setNode_nodes_self _ _ _
  rw [← hfs1] at hres
  have hch : Chmod fs1 (Join path e.header.Name) e.header.fileMode =
      .ok (setNode fs1 loc (.file e.data e.header.fileMode)) := by
    simp [Chmod, hres, hnode]
  refine ⟨loc, m0, hres0, hold, hres, hnode, hch, ?_⟩
  simp [processEntry, hc, applyMode, hch]

/-- C7: the trailing mode step of an entry aborts the run exactly when
`os.Chmod` fails with an error other than not-exist; when it fails with
not-exist the entry ends with the state as it was before the chmod and the loop
goes on with the next entry; and after a regular file was created the chmod
does not fail with not-exist: it finds the file and sets its mode. -/
theorem mode_step_policy :
    (∀ (path : Str) (fs fs1 : FS) (e : Entry), contentStep path fs e = .ok fs1 →
      ((∃ p, processEntry path fs e = .error p) ↔
        ∃ err, Chmod fs1 (Join path e.header.Name) e.header.fileMode = .error err ∧
          err ≠ .ENOENT)) ∧
    (∀ (path : Str) (fs fs1 : FS) (e : Entry), contentStep path fs e = .ok fs1 →
      Chmod fs1 (Join path e.header.Name) e.header.fileMode = .error .ENOENT →
      processEntry path fs e = .ok fs1 ∧
        ∀ rest, extractEntries path fs (e :: rest) = extractEntries path fs1 rest) ∧
    (∀ (path : Str) (fs fs1 : FS) (e : Entry), e.header.Typeflag = TypeReg →
      contentStep path fs e = .ok fs1 →
      Chmod fs1 (Join path e.header.Name) e.header.fileMode ≠ .error .ENOENT ∧
      ∃ fs2, Chmod fs1 (Join path e.header.Name) e.header.fileMode = .ok fs2 ∧
        processEntry path fs e = .ok fs2) := by
  refine ⟨?_, ?_, ?_⟩
  · intro path fs fs1 e hc
    simp only [processEntry, hc]
    exact applyMode_error_iff _ _ _
  · intro path fs fs1 e hc hch
    have hp : processEntry path fs e = .ok fs1 := by
      simp [processEntry, hc, applyMode, hch]
    refine ⟨hp, ?_⟩
    intro rest
    simp [extractEntries, hp]
  · intro path fs fs1 e ht hc
    obtain ⟨loc, m0, _, _, _, _, hch, hp⟩ := processEntry_reg_ok path fs fs1 e ht hc
    refine ⟨?_, _, hch, hp⟩
    rw [hch]
    simp

/-- Witness for C7: a dangling symbolic link is tolerated by the mode step, a
file in the way of a directory is not, and a fresh regular file gets its
mode. -/
theorem mode_step_policy_witness :
    nodeAt (processEntry demoRoot hostFS
        ⟨⟨TypeSymlink, "l".toList, "gone".toList, 0o777⟩, []⟩)
      ["tmp".toList, "docker-1".toList, "l".toList] = some (.symlink "gone".toList) ∧
    abortOf (processEntry demoRoot hostWithX
        ⟨⟨TypeLink, "x/y".toList, "x".toList, 0o644⟩, []⟩) =
      some (.failedToChmod .ENOTDIR) ∧
    nodeAt (processEntry demoRoot hostFS ⟨⟨TypeReg, "f".toList, [], 0o4755⟩, [7]⟩)
      ["tmp".toList, "docker-1".toList, "f".toList] = some (.file [7] 0o4755) ∧
    ∃ fs1 fs2, contentStep demoRoot hostFS ⟨⟨TypeReg, "f".toList, [], 0o4755⟩, [7]⟩ = .ok fs1 ∧
      processEntry demoRoot hostFS ⟨⟨TypeReg, "f".toList, [], 0o4755⟩, [7]⟩ = .ok fs2 := by
  refine ⟨by decide, by decide, by decide, ?_⟩
  have hc : abortOf (contentStep demoRoot hostFS ⟨⟨TypeReg, "f".toList, [], 0o4755⟩, [7]⟩) =
      none := by decide
  cases h : contentStep demoRoot hostFS ⟨⟨TypeReg, "f".toList, [], 0o4755⟩, [7]⟩ with
  | error p => rw [h] at hc; simp [abortOf] at hc
  | ok fs1 =>
    obtain ⟨_, fs2, _, h2⟩ := mode_step_policy.2.2 demoRoot hostFS fs1 _ rfl h
    exact ⟨fs1, fs2, rfl, h2⟩

/-! ### C8: entries of other kinds -/

theorem contentStep_other (path : Str) (fs : FS) (e : Entry)
    (h1 : e.header.Typeflag ≠ TypeSymlink) (h2 : e.header.Typeflag ≠ TypeDir)
    (h3 : e.header.Typeflag ≠ TypeReg) : contentStep path fs e = .ok fs := by
  simp [contentStep, h1, h2, h3]

/-- C8 (as stated, refuted): a hard-link entry named `x` with mode 0600,
processed when `x` is a regular file of mode 0644, changes the mode of `x`. -/
theorem other_kind_changes_mode :
    hostWithX.nodes ["tmp".toList, "docker-1".toList, "x".toList] =
      some (.file [1, 2, 3] 0o644) ∧
    nodeAt (processEntry demoRoot hostWithX ⟨⟨TypeLink, "x".toList, "y".toList, 0o600⟩, []⟩)
      ["tmp".toList, "docker-1".toList, "x".toList] = some (.file [1, 2, 3] 0o600) := by
  decide

/-- C8 (amended): for an entry that is neither a directory, a regular file nor
a symbolic link the switch does nothing, so the entry is processed by the
trailing chmod alone: nothing is created or removed and no content or link
text changes; when the joined path names nothing the state is unchanged, and
when it names a file or directory (through symbolic links) the mode of that
object is set to the entry's mode. -/
theorem other_kind_only_chmod (path : Str) (fs : FS) (e : Entry)
    (h1 : e.header.Typeflag ≠ TypeSymlink) (h2 : e.header.Typeflag ≠ TypeDir)
    (h3 : e.header.Typeflag ≠ TypeReg) :
    contentStep path fs e = .ok fs ∧
    processEntry path fs e = applyMode fs (Join path e.header.Name) e.header.fileMode ∧
    (Chmod fs (Join path e.header.Name) e.header.fileMode = .error .ENOENT →
      processEntry path fs e = .ok fs) ∧
    (∀ fs2, Chmod fs (Join path e.header.Name) e.header.fileMode = .ok fs2 →
      processEntry path fs e = .ok fs2) ∧
    (∀ fs2, processEntry path fs e = .ok fs2 →
      ∀ q, sameButMode (fs.nodes q) (fs2.nodes q)) := by
  have hc := contentStep_other path fs e h1 h2 h3
  have hp : processEntry path fs e =
      applyMode fs (Join path e.header.Name) e.header.fileMode := by
    simp [processEntry, hc]
  refine ⟨hc, hp, ?_, ?_, ?_⟩
  · intro h
    rw [hp]
    simp [applyMode, h]
  · intro fs2 h
    rw [hp]
    simp [applyMode, h]
  · intro fs2 h q
    rw [hp] at h
    rcases applyMode_ok _ _ _ _ h with h | ⟨_, h⟩
    · exact Chmod_sameButMode _ _ _ _ h q
    · rw [h]
      cases fs.nodes q with
      | none => trivial
      | some n => cases n <;> simp [sameButMode]

/-- Witness for `other_kind_only_chmod`: a character-device entry whose path
names nothing leaves the state as it is. -/
theorem other_kind_only_chmod_witness :
    processEntry demoRoot hostFS ⟨⟨TypeChar, "dev/null".toList, [], 0o666⟩, []⟩ =
      .ok hostFS :=
  (other_kind_only_chmod demoRoot hostFS ⟨⟨TypeChar, "dev/null".toList, [], 0o666⟩, []⟩
    (by decide) (by decide) (by decide)).2.2.1 rfl

/-! ### C6 and C3: the text of a symbolic link -/

theorem proper_reverse (l : List Str) (h : ∀ x ∈ l, Proper x) : ∀ x ∈ l.reverse, Proper x :=
  fun x hx => h x (List.mem_reverse.mp hx)

theorem proper_dropLast (l : List Str) (h : ∀ x ∈ l, Proper x) :
    ∀ x ∈ l.dropLast, Proper x :=
  fun x hx => h x (List.mem_of_mem_dropLast hx)

theorem relative_symlink_text (R n t : Str) (hR : IsAbs R = true) :
    ∃ rel, Rel (Dir (Join R n)) (Join R t) = some rel ∧ IsAbs rel = false ∧
      Join (Dir (Join R n)) rel = Join R t := by
  have hcs := proper_reverse _ (joinElems_proper R n)
  have hts := proper_reverse _ (joinElems_proper R t)
  have hds := proper_dropLast _ hcs
  rw [Join_abs R n hR, Join_abs R t hR, Dir_render _ hcs]
  obtain ⟨common, bs1, ts1, hb, ht, hrel⟩ := Rel_render _ _ hds hts
  refine ⟨relText bs1 ts1, hrel, ?_, ?_⟩
  · apply relText_not_abs
    intro e he
    exact hts e (by rw [ht]; simp [he])
  · rw [hb, ht]
    apply Join_relText
    · rw [← hb]; exact hds
    · rw [← ht]; exact hts

/-- C6: for an absolute destination root `R`, an entry name `n` and a link
target `t`, `filepath.Rel(filepath.Dir(newPath), filepath.Join(R, t))` with
`newPath = filepath.Join(R, n)` succeeds, its result is a relative path, and
joining the result onto `filepath.Dir(newPath)` gives `filepath.Join(R, t)`
again. -/
theorem relative_symlink_construction (R n t : Str) (hR : IsAbs R = true) :
    ∃ rel, Rel (Dir (Join R n)) (Join R t) = some rel ∧ IsAbs rel = false ∧
      Join (Dir (Join R n)) rel = Join R t :=
  relative_symlink_text R n t hR

/-- Witness for C6 at the root `/tmp/docker-1`, the entry `usr/bin/app` and the
link target `/lib/x.so`. -/
theorem relative_symlink_construction_witness :
    ∃ rel, Rel (Dir (Join demoRoot "usr/bin/app".toList)) (Join demoRoot "/lib/x.so".toList) =
        some rel ∧ IsAbs rel = false ∧
      Join (Dir (Join demoRoot "usr/bin/app".toList)) rel = Join demoRoot "/lib/x.so".toList :=
  relative_symlink_construction demoRoot "usr/bin/app".toList "/lib/x.so".toList (by decide)

theorem Symlink_ok (fs fs1 : FS) (oldname newname : Str)
    (h : Symlink fs oldname newname = .ok fs1) :
    ∃ loc, resolve fs false newname = .ok loc ∧ fs.nodes loc = none ∧
      fs1 = setNode fs loc (.symlink oldname) := by
  unfold Symlink at h
  by_cases ho : oldname = []
  · simp [ho] at h
  · rw [if_neg ho] at h
    cases hr : resolve fs false newname with
    | error e => simp [hr] at h
    | ok l =>
      rw [hr] at h
      dsimp only at h
      cases hn : fs.nodes l with
      | none =>
        rw [hn] at h
        simp only [Except.ok.injEq] at h
        exact ⟨l, rfl, hn, h.symm⟩
      | some n => rw [hn] at h; simp at h

theorem contentStep_symlink (path : Str) (fs fs1 : FS) (e : Entry)
    (ht : e.header.Typeflag = TypeSymlink) (h : contentStep path fs e = .ok fs1) :
    ∃ rel, Rel (Dir (Join path e.header.Name)) (Join path e.header.Linkname) = some rel ∧
      Symlink fs rel (Join path e.header.Name) = .ok fs1 := by
  unfold contentStep at h
  rw [if_pos ht] at h
  dsimp only at h
  cases hrel : Rel (Dir (Join path e.header.Name)) (Join path e.header.Linkname) with
  | none => rw [hrel] at h; simp at h
  | some rel =>
    rw [hrel] at h
    dsimp only at h
    cases hs : Symlink fs rel (Join path e.header.Name) with
    | error err => rw [hs] at h; simp at h
    | ok fs0 =>
      rw [hs] at h
      simp only [Except.ok.injEq] at h
      exact ⟨rel, rfl, by rw [hs, h]⟩

theorem sameButMode_symlink (t : Str) (o : Option Node)
    (h : sameButMode (some (.symlink t)) o) : o = some (.symlink t) := by
  cases o with
  | none => simp [sameButMode] at h
  | some n =>
    cases n with
    | file c m => simp [sameButMode] at h
    | dir m => simp [sameButMode] at h
    | symlink t2 => simp [sameButMode] at h; rw [h]

/-- A symbolic-link entry that is processed without a panic leaves, at the
place its joined path names, a link with the text `Rel` computed. -/
theorem processEntry_symlink (path : Str) (fs fs2 : FS) (e : Entry)
    (ht : e.header.Typeflag = TypeSymlink) (h : processEntry path fs e = .ok fs2) :
    ∃ loc rel, resolve fs false (Join path e.header.Name) = .ok loc ∧
      Rel (Dir (Join path e.header.Name)) (Join path e.header.Linkname) = some rel ∧
      fs.nodes loc = none ∧ fs2.nodes loc = some (.symlink rel) := by
  unfold processEntry at h
  cases hc : contentStep path fs e with
  | error p => rw [hc] at h; simp at h
  | ok fs1 =>
    rw [hc] at h
    dsimp only at h
    obtain ⟨rel, hrel, hs⟩ := contentStep_symlink path fs fs1 e ht hc
    obtain ⟨loc, hres, hnone, hfs1⟩ := Symlink_ok fs fs1 rel _ hs
    have hn1 : fs1.nodes loc = some (.symlink rel) := by
      rw [hfs1]; exact setNode_nodes_self _ _ _
    refine ⟨loc, rel, hres, hrel, hnone, ?_⟩
    rcases applyMode_ok _ _ _ _ h with h | ⟨_, h⟩
    · have := Chmod_sameButMode _ _ _ _ h loc
      rw [hn1] at this
      exact sameButMode_symlink _ _ this
    · rw [h]; exact hn1

theorem joinElems_usr (R : Str) :
    joinElems R "usr/shared/lib.so".toList =
      "lib.so".toList :: "shared".toList :: "usr".toList :: (Split R '/').foldl normStep [] := by
  have : Split "usr/shared/lib.so".toList '/' =
      ["usr".toList, "shared".toList, "lib.so".toList] := by decide
  unfold joinElems
  rw [this]
  simp [normStep]

theorem joinElems_up (R : Str) :
    joinElems R "../shared/lib.so".toList =
      "lib.so".toList :: "shared".toList :: ((Split R '/').foldl normStep []).tail := by
  have : Split "../shared/lib.so".toList '/' =
      ["..".toList, "shared".toList, "lib.so".toList] := by decide
  unfold joinElems
  rw [this]
  simp [normStep]

theorem Join_up_ne_usr (R : Str) (hR : IsAbs R = true) :
    Join R "../shared/lib.so".toList ≠ Join R "usr/shared/lib.so".toList := by
  intro h
  rw [Join_abs R _ hR, Join_abs R _ hR] at h
  have h2 := render_injective _ _ (proper_reverse _ (joinElems_proper R _))
    (proper_reverse _ (joinElems_proper R _)) h
  have h3 := congrArg List.length h2
  rw [List.length_reverse, List.length_reverse, joinElems_up, joinElems_usr] at h3
  simp at h3

theorem Join_up_parent (R : Str) (hR : IsAbs R = true) :
    Join R "../shared/lib.so".toList = Join (Join R "..".toList) "shared/lib.so".toList := by
  have hp : ∀ x ∈ ((Split R '/').foldl normStep []).tail, Proper x := by
    intro x hx
    have := joinElems_proper R []
    unfold joinElems at this
    simp [Split, normStep] at this
    exact this x (List.mem_of_mem_tail hx)
  have h1 : Join R "..".toList = render ((Split R '/').foldl normStep []).tail.reverse := by
    rw [Join_abs R _ hR]
    unfold joinElems
    have : Split "..".toList '/' = ["..".toList] := by decide
    rw [this]
    simp [normStep]
  rw [h1, Join_render _ _ (proper_reverse _ hp), Join_abs R _ hR, joinElems_up]
  have : Split "shared/lib.so".toList '/' = ["shared".toList, "lib.so".toList] := by decide
  rw [this]
  simp [normStep]

/-- C3 (as stated, refuted): under the root `/tmp/docker-1` the entry
`usr/bin/app` with link target `../shared/lib.so` becomes a link with the text
`../../../shared/lib.so`, which from `/tmp/docker-1/usr/bin` denotes
`/tmp/shared/lib.so` and not `/tmp/docker-1/usr/shared/lib.so`. -/
theorem symlink_example_escapes :
    nodeAt (extractEntries demoRoot hostFS
        [⟨⟨TypeDir, "usr/bin/".toList, [], 0o755⟩, []⟩,
         ⟨⟨TypeSymlink, "usr/bin/app".toList, "../shared/lib.so".toList, 0o777⟩, []⟩])
      ["tmp".toList, "docker-1".toList, "usr".toList, "bin".toList, "app".toList] =
        some (.symlink "../../../shared/lib.so".toList) ∧
    Join (Dir (Join demoRoot "usr/bin/app".toList)) "../../../shared/lib.so".toList =
      "/tmp/shared/lib.so".toList ∧
    Join demoRoot "usr/shared/lib.so".toList = "/tmp/docker-1/usr/shared/lib.so".toList ∧
    Join (Dir (Join demoRoot "usr/bin/app".toList)) "../../../shared/lib.so".toList ≠
      Join demoRoot "usr/shared/lib.so".toList := by
  decide

/-- C3 (amended): for every absolute destination root `R`, a symbolic-link
entry `usr/bin/app` with link target `../shared/lib.so` that is processed
without a panic leaves at the place `R/usr/bin/app` names a link whose text is
relative and, resolved lexically from the directory of the link, denotes
`Join(R, "../shared/lib.so")`: the target anchored at the root, which is
`shared/lib.so` in the parent directory of `R` and differs from
`R/usr/shared/lib.so`. -/
theorem symlink_example_anchored (R : Str) (fs fs2 : FS) (mode : Nat) (data : List Nat)
    (hR : IsAbs R = true)
    (h : processEntry R fs
      ⟨⟨TypeSymlink, "usr/bin/app".toList, "../shared/lib.so".toList, mode⟩, data⟩ = .ok fs2) :
    ∃ loc text, resolve fs false (Join R "usr/bin/app".toList) = .ok loc ∧
      fs2.nodes loc = some (.symlink text) ∧ IsAbs text = false ∧
      Join (Dir (Join R "usr/bin/app".toList)) text = Join R "../shared/lib.so".toList ∧
      Join R "../shared/lib.so".toList = Join (Join R "..".toList) "shared/lib.so".toList ∧
      Join R "../shared/lib.so".toList ≠ Join R "usr/shared/lib.so".toList := by
  obtain ⟨loc, rel, hres, hrel, _, hnode⟩ := processEntry_symlink R fs fs2 _ rfl h
  obtain ⟨rel2, hrel2, hna, hj⟩ :=
    relative_symlink_text R "usr/bin/app".toList "../shared/lib.so".toList hR
  have : rel2 = rel := by
    have h0 := hrel2.symm.trans hrel
    simpa using h0
  subst this
  exact ⟨loc, rel2, hres, hnode, hna, hj, Join_up_parent R hR, Join_up_ne_usr R hR⟩

/-- Witness for `symlink_example_anchored` at the root `/tmp/docker-1` with the
directory `usr/bin` in place. -/
theorem symlink_example_anchored_witness :
    ∃ fs2, processEntry demoRoot hostUsrBin
        ⟨⟨TypeSymlink, "usr/bin/app".toList, "../shared/lib.so".toList, 0o777⟩, []⟩ = .ok fs2 ∧
      ∃ loc text, resolve hostUsrBin false (Join demoRoot "usr/bin/app".toList) = .ok loc ∧
        fs2.nodes loc = some (.symlink text) ∧ IsAbs text = false ∧
        Join (Dir (Join demoRoot "usr/bin/app".toList)) text =
          Join demoRoot "../shared/lib.so".toList ∧
        Join demoRoot "../shared/lib.so".toList =
          Join (Join demoRoot "..".toList) "shared/lib.so".toList ∧
        Join demoRoot "../shared/lib.so".toList ≠ Join demoRoot "usr/shared/lib.so".toList := by
  have hc : abortOf (processEntry demoRoot hostUsrBin
      ⟨⟨TypeSymlink, "usr/bin/app".toList, "../shared/lib.so".toList, 0o777⟩, []⟩) = none := by
    decide
  cases h : processEntry demoRoot hostUsrBin
      ⟨⟨TypeSymlink, "usr/bin/app".toList, "../shared/lib.so".toList, 0o777⟩, []⟩ with
  | error p => rw [h] at hc; simp [abortOf] at hc
  | ok fs2 =>
    exact ⟨fs2, rfl, symlink_example_anchored demoRoot hostUsrBin fs2 _ _ (by decide) h⟩

/-! ### C10: the unchecked join -/

/-- C10: the destination of an entry is `Join(R, name)` and nothing checks that
it stays under `R`: for the absolute root `/tmp/docker-1` the entry name
`../../etc/passwd` gives `/etc/passwd`, which does not lie inside the root, and
processing a regular-file entry of that name creates the file there with the
entry's bytes and mode. -/
theorem unchecked_join_escapes :
    ∃ (R name : Str) (fs : FS) (data : List Nat) (mode : Nat),
      IsAbs R = true ∧
      Join R name = "/etc/passwd".toList ∧
      liesInside R (Join R name) = false ∧
      Stat fs (Join R name) = .error .ENOENT ∧
      statAt (processEntry R fs ⟨⟨TypeReg, name, [], mode⟩, data⟩) (Join R name) =
        some (.file data mode) :=
  ⟨demoRoot, "../../etc/passwd".toList, hostFS, [114, 111, 111, 116], 0o644,
    by decide, by decide, by decide, rfl, by decide⟩

/-! ### Path resolution in a filesystem that only grows -/

theorem sameKind_refl (o : Option Node) : sameKind o o := by
  cases o with
  | none => trivial
  | some n => cases n <;> simp [sameKind]

theorem sameKind_trans (o1 o2 o3 : Option Node) (h1 : sameKind o1 o2) (h2 : sameKind o2 o3) :
    sameKind o1 o3 := by
  cases o1 with
  | none => trivial
  | some n1 =>
    cases o2 with
    | none => cases n1 <;> simp [sameKind] at h1
    | some n2 =>
      cases o3 with
      | none => cases n2 <;> simp [sameKind] at h2
      | some n3 =>
        cases n1 <;> cases n2 <;> cases n3 <;> simp [sameKind] at h1 h2 ⊢
        rw [h1, h2]

theorem sameKind_symlink (t : Str) (o : Option Node) (h : sameKind (some (.symlink t)) o) :
    o = some (.symlink t) := by
  cases o with
  | none => simp [sameKind] at h
  | some n =>
    cases n with
    | file c m => simp [sameKind] at h
    | dir m => simp [sameKind] at h
    | symlink t2 => simp [sameKind] at h; rw [h]

theorem sameKind_notLink (n : Node) (o : Option Node) (hn : ∀ t, n ≠ .symlink t)
    (h : sameKind (some n) o) : NotLink o ∧ o ≠ none := by
  cases o with
  | none => cases n <;> simp [sameKind] at h
  | some n2 =>
    refine ⟨?_, by simp⟩
    intro t ht
    simp only [Option.some.injEq] at ht
    subst ht
    cases n with
    | file c m => simp [sameKind] at h
    | dir m => simp [sameKind] at h
    | symlink t2 => exact hn t2 rfl

theorem Ext_refl (fs : FS) : Ext fs fs := ⟨fun _ => sameKind_refl _, rfl⟩

theorem Ext_trans (fs fs1 fs2 : FS) (h1 : Ext fs fs1) (h2 : Ext fs1 fs2) : Ext fs fs2 :=
  ⟨fun q => sameKind_trans _ _ _ (h1.1 q) (h2.1 q), h2.2.trans h1.2⟩

theorem Ext_setNode (fs : FS) (loc : Loc) (n : Node) (h : sameKind (fs.nodes loc) (some n)) :
    Ext fs (setNode fs loc n) := by
  refine ⟨?_, rfl⟩
  intro q
  by_cases hq : q = loc
  · rw [hq, setNode_nodes_self]; exact h
  · rw [setNode_nodes_ne _ _ _ _ hq]; exact sameKind_refl _

theorem walkAux_ext (fs fs2 : FS) (fl : Bool) (r : Loc)
    (hext : ∀ q, sameKind (fs.nodes q) (fs2.nodes q))
    (hr : NotLink (fs.nodes r)) (hr2 : NotLink (fs2.nodes r))
    (follow follow2 : Loc → List Str → Except Errno Loc)
    (hf : ∀ cur rest, follow cur rest = .ok r → follow2 cur rest = .ok r) :
    ∀ rest cur, walkAux fs fl follow cur rest = .ok r →
      walkAux fs2 true follow2 cur rest = .ok r := by
  intro rest
  induction rest with
  | nil => intro cur h; simpa [walkAux] using h
  | cons e rest ih =>
    intro cur h
    rw [walkAux] at h ⊢
    by_cases he : e = ['.', '.']
    · rw [if_pos he] at h ⊢
      exact ih _ h
    · rw [if_neg he] at h ⊢
      have hk := hext (cur ++ [e])
      cases hn : fs.nodes (cur ++ [e]) with
      | none =>
        rw [hn] at h
        by_cases hrest : rest = []
        · simp only [hrest, if_true, Except.ok.injEq] at h
          subst hrest
          cases hn2 : fs2.nodes (cur ++ [e]) with
          | none => simp [h]
          | some n2 =>
            cases n2 with
            | file c m => simp [h]
            | dir m => simp [walkAux, h]
            | symlink t => rw [h] at hn2; exact absurd hn2 (hr2 t)
        · simp [hrest] at h
      | some n =>
        rw [hn] at h hk
        cases n with
        | file c m =>
          cases hn2 : fs2.nodes (cur ++ [e]) with
          | none => rw [hn2] at hk; simp [sameKind] at hk
          | some n2 =>
            rw [hn2] at hk
            cases n2 with
            | file c2 m2 => exact h
            | dir m2 => simp [sameKind] at hk
            | symlink t => simp [sameKind] at hk
        | dir m =>
          cases hn2 : fs2.nodes (cur ++ [e]) with
          | none => rw [hn2] at hk; simp [sameKind] at hk
          | some n2 =>
            rw [hn2] at hk
            cases n2 with
            | file c2 m2 => simp [sameKind] at hk
            | dir m2 => exact ih _ h
            | symlink t => simp [sameKind] at hk
        | symlink t =>
          rw [sameKind_symlink t _ hk]
          dsimp only at h ⊢
          by_cases hc : rest = [] ∧ fl = false
          · rw [if_pos hc] at h
            simp only [Except.ok.injEq] at h
            rw [h] at hn
            exact absurd hn (hr t)
          · rw [if_neg hc] at h
            have hc2 : ¬ (rest = [] ∧ true = false) := by simp
            rw [if_neg hc2]
            exact hf _ _ h

theorem walk_ext (fs fs2 : FS) (fl : Bool) (r : Loc)
    (hext : ∀ q, sameKind (fs.nodes q) (fs2.nodes q))
    (hr : NotLink (fs.nodes r)) (hr2 : NotLink (fs2.nodes r)) :
    ∀ n cur rest, walk fs fl n cur rest = .ok r → walk fs2 true n cur rest = .ok r := by
  intro n
  induction n with
  | zero => intro cur rest h; simp [walk] at h
  | succ n ih =>
    intro cur rest h
    rw [walk] at h ⊢
    exact walkAux_ext fs fs2 fl r hext hr hr2 _ _ ih rest cur h

/-- A path that names a place that holds no symbolic link, before and after,
names the same place once the filesystem has grown, symbolic links
followed. -/
theorem resolve_ext (fs fs2 : FS) (fl : Bool) (path : Str) (r : Loc) (hext : Ext fs fs2)
    (hr : NotLink (fs.nodes r)) (hr2 : NotLink (fs2.nodes r))
    (h : resolve fs fl path = .ok r) : resolve fs2 true path = .ok r := by
  unfold resolve at h ⊢
  by_cases hp : path = []
  · simp [hp] at h
  · rw [if_neg hp] at h ⊢
    rw [hext.2]
    exact walk_ext fs fs2 fl r hext.1 hr hr2 _ _ _ h

theorem resolve_ext_some (fs fs2 : FS) (fl : Bool) (path : Str) (r : Loc) (n : Node)
    (hext : Ext fs fs2) (hn : fs.nodes r = some n) (hnl : ∀ t, n ≠ .symlink t)
    (h : resolve fs fl path = .ok r) : resolve fs2 true path = .ok r := by
  have hk := hext.1 r
  rw [hn] at hk
  refine resolve_ext fs fs2 fl path r hext ?_ (sameKind_notLink n _ hnl hk).1 h
  intro t ht
  rw [hn] at ht
  simp only [Option.some.injEq] at ht
  exact hnl t ht

theorem Grow_refl (fs : FS) : Grow fs fs :=
  ⟨fun _ _ h => h, fun _ h => Or.inl h, rfl⟩

theorem Grow_trans (fs fs1 fs2 : FS) (h1 : Grow fs fs1) (h2 : Grow fs1 fs2) : Grow fs fs2 := by
  refine ⟨fun q n h => h2.1 q n (h1.1 q n h), ?_, h2.2.2.trans h1.2.2⟩
  intro q h
  rcases h1.2.1 q h with h | ⟨m, h⟩
  · exact h2.2.1 q h
  · exact Or.inr ⟨m, h2.1 q _ h⟩

theorem Mkdir_ok (fs fs2 : FS) (name : Str) (perm : Nat) (h : Mkdir fs name perm = .ok fs2) :
    ∃ loc m, resolve fs false name = .ok loc ∧ fs.nodes loc = none ∧
      fs2 = setNode fs loc (.dir m) := by
  unfold Mkdir at h
  cases hr : resolve fs false name with
  | error e => simp [hr] at h
  | ok l =>
    rw [hr] at h
    dsimp only at h
    cases hn : fs.nodes l with
    | some n => rw [hn] at h; simp at h
    | none =>
      rw [hn] at h
      simp only [Except.ok.injEq] at h
      exact ⟨l, _, rfl, hn, h.symm⟩

theorem Mkdir_grow (fs fs2 : FS) (name : Str) (perm : Nat) (h : Mkdir fs name perm = .ok fs2) :
    Grow fs fs2 := by
  obtain ⟨l, m, _, hn, hset⟩ := Mkdir_ok fs fs2 name perm h
  rw [hset]
  refine ⟨?_, ?_, rfl⟩
  · intro q n hq
    have : q ≠ l := fun e => by rw [e, hn] at hq; simp at hq
    rw [setNode_nodes_ne _ _ _ _ this]; exact hq
  · intro q hq
    by_cases hql : q = l
    · rw [hql, setNode_nodes_self]; exact Or.inr ⟨_, rfl⟩
    · rw [setNode_nodes_ne _ _ _ _ hql]; exact Or.inl hq

theorem MkdirAllFuel_grow :
    ∀ (fuel : Nat) (fs fs2 : FS) (path : Str) (perm : Nat),
      MkdirAllFuel fuel fs path perm = .ok fs2 → Grow fs fs2 := by
  intro fuel
  induction fuel with
  | zero => intro fs fs2 path perm h; simp [MkdirAllFuel] at h
  | succ k ih =>
    intro fs fs2 path perm h
    rw [MkdirAllFuel] at h
    cases hs : Stat fs path with
    | ok n =>
      rw [hs] at h
      cases n with
      | dir m =>
        simp only [Except.ok.injEq] at h
        rw [← h]; exact Grow_refl fs
      | file c m => simp at h
      | symlink t => simp at h
    | error e0 =>
      rw [hs] at h
      dsimp only at h
      have hpar : ∀ fs1, (if parentOf path ≠ [] then MkdirAllFuel k fs (parentOf path) perm
          else Except.ok fs) = Except.ok fs1 → Grow fs fs1 := by
        intro fs1 h1
        by_cases hp : parentOf path ≠ []
        · rw [if_pos hp] at h1; exact ih _ _ _ _ h1
        · rw [if_neg hp] at h1
          simp only [Except.ok.injEq] at h1
          rw [← h1]; exact Grow_refl fs
      cases hm : (if parentOf path ≠ [] then MkdirAllFuel k fs (parentOf path) perm
          else Except.ok fs) with
      | error e1 => rw [hm] at h; simp at h
      | ok fs1 =>
        rw [hm] at h
        dsimp only at h
        have hg1 := hpar fs1 hm
        cases hmk : Mkdir fs1 path perm with
        | ok fs3 =>
          rw [hmk] at h
          simp only [Except.ok.injEq] at h
          rw [← h]
          exact Grow_trans _ _ _ hg1 (Mkdir_grow _ _ _ _ hmk)
        | error e2 =>
          rw [hmk] at h
          dsimp only at h
          cases hl : Lstat fs1 path with
          | error e3 => rw [hl] at h; simp at h
          | ok n =>
            rw [hl] at h
            cases n with
            | dir m =>
              simp only [Except.ok.injEq] at h
              rw [← h]; exact hg1
            | file c m => simp at h
            | symlink t => simp at h

theorem Ext_of_grow (fs fs2 : FS) (h : Grow fs fs2) : Ext fs fs2 := by
  refine ⟨?_, h.2.2⟩
  intro q
  cases hn : fs.nodes q with
  | none => trivial
  | some n => rw [h.1 q n hn]; exact sameKind_refl _

theorem Lstat_ok (fs : FS) (name : Str) (n : Node) (h : Lstat fs name = .ok n) :
    ∃ loc, resolve fs false name = .ok loc ∧ fs.nodes loc = some n := by
  unfold Lstat at h
  cases hr : resolve fs false name with
  | error e => simp [hr] at h
  | ok l =>
    rw [hr] at h
    dsimp only at h
    cases hn : fs.nodes l with
    | none => rw [hn] at h; simp at h
    | some n2 =>
      rw [hn] at h
      simp only [Except.ok.injEq] at h
      exact ⟨l, rfl, by rw [hn, h]⟩

theorem Stat_ok (fs : FS) (name : Str) (n : Node) (h : Stat fs name = .ok n) :
    ∃ loc, resolve fs true name = .ok loc ∧ fs.nodes loc = some n := by
  unfold Stat at h
  cases hr : resolve fs true name with
  | error e => simp [hr] at h
  | ok l =>
    rw [hr] at h
    dsimp only at h
    cases hn : fs.nodes l with
    | none => rw [hn] at h; simp at h
    | some n2 =>
      rw [hn] at h
      simp only [Except.ok.injEq] at h
      exact ⟨l, rfl, by rw [hn, h]⟩

/-- After `os.MkdirAll(path, perm)` succeeded the path names a directory,
symbolic links followed. -/
theorem MkdirAll_lands (fs fs1 : FS) (path : Str) (perm : Nat)
    (h : MkdirAll fs path perm = .ok fs1) :
    ∃ loc m, resolve fs1 true path = .ok loc ∧ fs1.nodes loc = some (.dir m) := by
  unfold MkdirAll at h
  rw [MkdirAllFuel] at h
  cases hs : Stat fs path with
  | ok n =>
    rw [hs] at h
    cases n with
    | dir m =>
      simp only [Except.ok.injEq] at h
      subst h
      obtain ⟨loc, hr, hn⟩ := Stat_ok _ _ _ hs
      exact ⟨loc, m, hr, hn⟩
    | file c m => simp at h
    | symlink t => simp at h
  | error e0 =>
    rw [hs] at h
    dsimp only at h
    cases hm : (if parentOf path ≠ [] then
        MkdirAllFuel path.length fs (parentOf path) perm
        else Except.ok fs) with
    | error e1 => rw [hm] at h; simp at h
    | ok fs0 =>
      rw [hm] at h
      dsimp only at h
      cases hmk : Mkdir fs0 path perm with
      | ok fs3 =>
        rw [hmk] at h
        simp only [Except.ok.injEq] at h
        subst h
        obtain ⟨loc, m, hr, hnone, hset⟩ := Mkdir_ok _ _ _ _ hmk
        have hn3 : fs3.nodes loc = some (.dir m) := by
          rw [hset]; exact setNode_nodes_self _ _ _
        refine ⟨loc, m, ?_, hn3⟩
        refine resolve_ext fs0 fs3 false path loc ?_ ?_ ?_ hr
        · rw [hset]
          apply Ext_setNode
          rw [hnone]
          trivial
        · intro t ht; rw [hnone] at ht; simp at ht
        · intro t ht; rw [hn3] at ht; simp at ht
      | error e2 =>
        rw [hmk] at h
        dsimp only at h
        cases hl : Lstat fs0 path with
        | error e3 => rw [hl] at h; simp at h
        | ok n =>
          rw [hl] at h
          cases n with
          | dir m =>
            simp only [Except.ok.injEq] at h
            subst h
            obtain ⟨loc, hr, hn⟩ := Lstat_ok _ _ _ hl
            exact ⟨loc, m, resolve_ext_some fs0 fs0 false path loc _ (Ext_refl _) hn
              (by simp) hr, hn⟩
          | file c m => simp at h
          | symlink t => simp at h

/-! ### What an entry changes -/

theorem Frame_refl (fs : FS) (p : Str) : Frame fs fs p :=
  ⟨Ext_refl fs, fun _ _ h => Or.inl h⟩

theorem Frame_of_grow (fs fs2 : FS) (p : Str) (h : Grow fs fs2) : Frame fs fs2 p :=
  ⟨Ext_of_grow fs fs2 h, fun q n hq => Or.inl (h.1 q n hq)⟩

theorem Frame_trans (fs fs1 fs2 : FS) (p : Str) (h1 : Frame fs fs1 p)
    (h2 : Frame fs1 fs2 p) : Frame fs fs2 p := by
  refine ⟨Ext_trans _ _ _ h1.1 h2.1, ?_⟩
  intro q n hq
  by_cases hsame : fs1.nodes q = some n
  · exact h2.2 q n hsame
  · right
    have hres : resolve fs1 true p = .ok q := by
      rcases h1.2 q n hq with h | h
      · exact absurd h hsame
      · exact h
    have hk := h1.1.1 q
    rw [hq] at hk
    have hnl : ∀ t, n ≠ .symlink t := by
      intro t e
      apply hsame
      rw [e] at hk ⊢
      exact sameKind_symlink t _ hk
    obtain ⟨hnot1, hne1⟩ := sameKind_notLink n _ hnl hk
    cases hn1 : fs1.nodes q with
    | none => exact absurd hn1 hne1
    | some n1 =>
      have hnl1 : ∀ t, n1 ≠ .symlink t := by
        intro t e
        rw [e] at hn1
        exact hnot1 t hn1
      exact resolve_ext_some fs1 fs2 true p q n1 h2.1 hn1 hnl1 hres

theorem Frame_setNode_none (fs : FS) (loc : Loc) (n : Node) (p : Str)
    (h : fs.nodes loc = none) : Frame fs (setNode fs loc n) p := by
  refine ⟨Ext_setNode fs loc n (by rw [h]; trivial), ?_⟩
  intro q n0 hq
  have : q ≠ loc := fun e => by rw [e, h] at hq; simp at hq
  left
  rw [setNode_nodes_ne _ _ _ _ this]; exact hq

theorem Frame_chmod (fs fs2 : FS) (p : Str) (mode : Nat) (h : Chmod fs p mode = .ok fs2) :
    Frame fs fs2 p := by
  obtain ⟨loc, hres, hcase⟩ := Chmod_ok fs fs2 p mode h
  have key : ∀ (n0 n1 : Node), fs.nodes loc = some n0 → (∀ t, n0 ≠ .symlink t) →
      sameKind (some n0) (some n1) → fs2 = setNode fs loc n1 → Frame fs fs2 p := by
    intro n0 n1 hn0 hnl hk hset
    have hext : Ext fs fs2 := by
      rw [hset]; exact Ext_setNode fs loc n1 (by rw [hn0]; exact hk)
    refine ⟨hext, ?_⟩
    intro q n hq
    by_cases hql : q = loc
    · right
      rw [hql]
      exact resolve_ext_some fs fs2 true p loc n0 hext hn0 hnl hres
    · left
      rw [hset, setNode_nodes_ne _ _ _ _ hql]; exact hq
  rcases hcase with ⟨c, m0, h1, h2⟩ | ⟨m0, h1, h2⟩
  · exact key _ _ h1 (by simp) (by simp [sameKind]) h2
  · exact key _ _ h1 (by simp) (by simp [sameKind]) h2

theorem Frame_applyMode (fs fs2 : FS) (p : Str) (mode : Nat)
    (h : applyMode fs p mode = .ok fs2) : Frame fs fs2 p := by
  rcases applyMode_ok _ _ _ _ h with h | ⟨_, h⟩
  · exact Frame_chmod fs fs2 p mode h
  · rw [h]; exact Frame_refl fs p

theorem contentStep_frame (R : Str) (fs fs1 : FS) (e : Entry)
    (h : contentStep R fs e = .ok fs1) : Frame fs fs1 (Join R e.header.Name) := by
  by_cases hsym : e.header.Typeflag = TypeSymlink
  · obtain ⟨rel, _, hs⟩ := contentStep_symlink R fs fs1 e hsym h
    obtain ⟨loc, _, hnone, hset⟩ := Symlink_ok fs fs1 rel _ hs
    rw [hset]
    exact Frame_setNode_none fs loc _ _ hnone
  · by_cases hd : e.header.Typeflag = TypeDir
    · unfold contentStep at h
      rw [if_neg hsym, if_pos hd] at h
      cases hm : MkdirAll fs (Join R e.header.Name) e.header.fileMode with
      | error err => rw [hm] at h; simp at h
      | ok fs0 =>
        rw [hm] at h
        simp only [Except.ok.injEq] at h
        rw [← h]
        exact Frame_of_grow _ _ _ (MkdirAllFuel_grow _ _ _ _ _ hm)
    · by_cases hreg : e.header.Typeflag = TypeReg
      · obtain ⟨fs0, loc, hcr, hfs1⟩ := contentStep_reg R fs fs1 e hreg h
        obtain ⟨_, hold, _, _⟩ := Create_ok fs fs0 _ loc hcr
        obtain ⟨m0, hcopy, hfs0, hres⟩ := Create_Copy_ok fs fs0 _ loc e.data hcr
        rw [← hfs1] at hcopy hres
        have hn0 : fs0.nodes loc = some (.file [] m0) := by
          rw [hfs0]; exact setNode_nodes_self _ _ _
        have hk : sameKind (fs.nodes loc) (some (.file [] m0)) := by
          rcases hold with h0 | ⟨c0, m1, h0⟩
          · rw [h0]; trivial
          · rw [h0]; simp [sameKind]
        have e1 : Ext fs fs0 := by rw [hfs0]; exact Ext_setNode fs loc _ hk
        have e2 : Ext fs0 fs1 := by
          rw [hcopy]; exact Ext_setNode fs0 loc _ (by rw [hn0]; simp [sameKind])
        refine ⟨Ext_trans _ _ _ e1 e2, ?_⟩
        intro q n hq
        by_cases hql : q = loc
        · right; rw [hql]; exact hres
        · left
          rw [hcopy, setNode_nodes_ne _ _ _ _ hql, hfs0, setNode_nodes_ne _ _ _ _ hql]
          exact hq
      · rw [contentStep_other R fs e hsym hd hreg] at h
        simp only [Except.ok.injEq] at h
        rw [← h]; exact Frame_refl fs _

/-- An entry that is processed without a panic leaves every object in its place
and of its kind, and changes no object but the one its joined path names
afterwards. -/
theorem processEntry_frame (R : Str) (fs fs2 : FS) (e : Entry)
    (h : processEntry R fs e = .ok fs2) : Frame fs fs2 (Join R e.header.Name) := by
  unfold processEntry at h
  cases hc : contentStep R fs e with
  | error p => rw [hc] at h; simp at h
  | ok fs1 =>
    rw [hc] at h
    dsimp only at h
    exact Frame_trans _ _ _ _ (contentStep_frame R fs fs1 e hc) (Frame_applyMode _ _ _ _ h)

/-- A regular-file or directory entry that is processed without a panic leaves
at its joined path what the entry says. -/
theorem processEntry_lands (R : Str) (fs fs2 : FS) (e : Entry)
    (hkind : e.header.Typeflag = TypeReg ∨ e.header.Typeflag = TypeDir)
    (h : processEntry R fs e = .ok fs2) :
    ∃ loc, resolve fs2 true (Join R e.header.Name) = .ok loc ∧
      fs2.nodes loc = some (entryNode e) := by
  rcases hkind with ht | ht
  · have hnd : e.header.Typeflag ≠ TypeDir := by rw [ht]; decide
    cases hc : contentStep R fs e with
    | error p => simp [processEntry, hc] at h
    | ok fs1 =>
      obtain ⟨loc, m0, _, _, hres1, hnode, _, hp⟩ := processEntry_reg_ok R fs fs1 e ht hc
      rw [hp] at h
      simp only [Except.ok.injEq] at h
      refine ⟨loc, ?_, ?_⟩
      · rw [← h]
        exact resolve_setFile fs1 true _ _ _ (Or.inr ⟨_, _, hnode⟩) _ _ hres1
      · rw [← h, setNode_nodes_self]
        simp [entryNode, hnd]
  · have hns : e.header.Typeflag ≠ TypeSymlink := by rw [ht]; decide
    unfold processEntry at h
    cases hc : contentStep R fs e with
    | error p => rw [hc] at h; simp at h
    | ok fs1 =>
      rw [hc] at h
      dsimp only at h
      unfold contentStep at hc
      rw [if_neg hns, if_pos ht] at hc
      cases hm : MkdirAll fs (Join R e.header.Name) e.header.fileMode with
      | error err => rw [hm] at hc; simp at hc
      | ok fs0 =>
        rw [hm] at hc
        simp only [Except.ok.injEq] at hc
        subst hc
        obtain ⟨loc, m, hres, hn⟩ := MkdirAll_lands fs fs0 _ _ hm
        have hch : Chmod fs0 (Join R e.header.Name) e.header.fileMode =
            .ok (setNode fs0 loc (.dir e.header.fileMode)) := by
          simp [Chmod, hres, hn]
        simp only [applyMode, hch, Except.ok.injEq] at h
        refine ⟨loc, ?_, ?_⟩
        · rw [← h]
          refine resolve_ext_some fs0 _ true _ loc _ ?_ hn (by simp) hres
          exact Ext_setNode fs0 loc _ (by rw [hn]; simp [sameKind])
        · rw [← h, setNode_nodes_self]
          simp [entryNode, ht]

theorem extractEntries_cons_ok (R : Str) (fs fs2 : FS) (e : Entry) (es : List Entry)
    (h : extractEntries R fs (e :: es) = .ok fs2) :
    ∃ fs1, processEntry R fs e = .ok fs1 ∧ extractEntries R fs1 es = .ok fs2 := by
  rw [extractEntries] at h
  cases hp : processEntry R fs e with
  | error p => rw [hp] at h; simp at h
  | ok fs1 => rw [hp] at h; exact ⟨fs1, rfl, h⟩

theorem extractEntries_append_ok (R : Str) (a b : List Entry) :
    ∀ (fs fs2 : FS), extractEntries R fs (a ++ b) = .ok fs2 →
      ∃ fs1, extractEntries R fs a = .ok fs1 ∧ extractEntries R fs1 b = .ok fs2 := by
  induction a with
  | nil => intro fs fs2 h; exact ⟨fs, rfl, h⟩
  | cons e es ih =>
    intro fs fs2 h
    obtain ⟨fs1, hp, hrest⟩ := extractEntries_cons_ok R fs fs2 e (es ++ b) h
    obtain ⟨fs3, h3, h4⟩ := ih fs1 fs2 hrest
    refine ⟨fs3, ?_, h4⟩
    simp [extractEntries, hp, h3]

theorem extractEntries_ext (R : Str) (es : List Entry) :
    ∀ (fs fs2 : FS), extractEntries R fs es = .ok fs2 → Ext fs fs2 := by
  induction es with
  | nil =>
    intro fs fs2 h
    simp only [extractEntries, Except.ok.injEq] at h
    rw [← h]; exact Ext_refl fs
  | cons e es ih =>
    intro fs fs2 h
    obtain ⟨fs1, hp, hrest⟩ := extractEntries_cons_ok R fs fs2 e es h
    exact Ext_trans _ _ _ (processEntry_frame R fs fs1 e hp).1 (ih fs1 fs2 hrest)

/-- An object that is not a symbolic link stays as it is through the entries
that follow, when none of their joined paths names it at the end. -/
theorem extractEntries_keeps (R : Str) (loc : Loc) (n : Node) (hnl : ∀ t, n ≠ .symlink t)
    (es : List Entry) :
    ∀ (fs fsN : FS), extractEntries R fs es = .ok fsN → fs.nodes loc = some n →
      (∀ x ∈ es, resolve fsN true (Join R x.header.Name) ≠ .ok loc) →
      fsN.nodes loc = some n := by
  induction es with
  | nil =>
    intro fs fsN h hn _
    simp only [extractEntries, Except.ok.injEq] at h
    rw [← h]; exact hn
  | cons e es ih =>
    intro fs fsN h hn hapart
    obtain ⟨fs1, hp, hrest⟩ := extractEntries_cons_ok R fs fsN e es h
    have hframe := processEntry_frame R fs fs1 e hp
    have hext := extractEntries_ext R es fs1 fsN hrest
    rcases hframe.2 loc n hn with h1 | h1
    · exact ih fs1 fsN hrest h1 (fun x hx => hapart x (by simp [hx]))
    · exfalso
      apply hapart e (by simp)
      have hk := hframe.1.1 loc
      rw [hn] at hk
      obtain ⟨hnot1, hne1⟩ := sameKind_notLink n _ hnl hk
      cases hn1 : fs1.nodes loc with
      | none => exact absurd hn1 hne1
      | some n1 =>
        have hnl1 : ∀ t, n1 ≠ .symlink t := by
          intro t e0
          rw [e0] at hn1
          exact hnot1 t hn1
        exact resolve_ext_some fs1 fsN true _ loc n1 hext hn1 hnl1 h1

theorem pullLayer_ok (blobs : BlobStore) (imgName token R : Str) (fs fs2 : FS)
    (layer : manifestLayer) (h : pullLayer blobs imgName token R fs layer = .ok fs2) :
    extractEntries R fs (layerEntries blobs imgName token layer) = .ok fs2 := by
  unfold pullLayer at h
  unfold layerEntries
  cases hb : blobs imgName layer token with
  | badRequest => rw [hb] at h; simp at h
  | noResponse => rw [hb] at h; simp at h
  | response res =>
    rw [hb] at h
    dsimp only at h ⊢
    by_cases hg : res.gzip = false
    · simp [hg] at h
    · rw [if_neg hg] at h
      cases he : extractEntries R fs res.entries with
      | error p => rw [he] at h; simp at h
      | ok fs1 =>
        rw [he] at h
        dsimp only at h
        by_cases hi : res.intact = false
        · simp [hi] at h
        · rw [if_neg hi] at h
          by_cases hc : res.closes = false
          · simp [hc] at h
          · rw [if_neg hc] at h
            exact h

theorem pullLayers_cons_ok (blobs : BlobStore) (imgName token R : Str) (fs fs2 : FS)
    (layer : manifestLayer) (rest : List manifestLayer)
    (h : (pullLayers blobs imgName token R fs (layer :: rest)).2 = .ok fs2) :
    ∃ fs1, pullLayer blobs imgName token R fs layer = .ok fs1 ∧
      (pullLayers blobs imgName token R fs1 rest).2 = .ok fs2 := by
  rw [pullLayers] at h
  cases hp : pullLayer blobs imgName token R fs layer with
  | error p => rw [hp] at h; simp at h
  | ok fs1 => rw [hp] at h; exact ⟨fs1, rfl, h⟩

theorem pullLayers_append_ok (blobs : BlobStore) (imgName token R : Str)
    (a b : List manifestLayer) :
    ∀ (fs fs2 : FS), (pullLayers blobs imgName token R fs (a ++ b)).2 = .ok fs2 →
      ∃ fs1, (pullLayers blobs imgName token R fs a).2 = .ok fs1 ∧
        (pullLayers blobs imgName token R fs1 b).2 = .ok fs2 := by
  induction a with
  | nil => intro fs fs2 h; exact ⟨fs, rfl, h⟩
  | cons l ls ih =>
    intro fs fs2 h
    obtain ⟨fs1, hp, hrest⟩ := pullLayers_cons_ok blobs imgName token R fs fs2 l (ls ++ b) h
    obtain ⟨fs3, h3, h4⟩ := ih fs1 fs2 hrest
    refine ⟨fs3, ?_, h4⟩
    rw [pullLayers, hp]
    exact h3

theorem namedApart_ne (fs : FS) (a b : Str) (h : namedApart (.ok fs) a b = true) :
    resolve fs true a ≠ resolve fs true b := by
  unfold namedApart at h
  dsimp only at h
  intro e
  rw [e] at h
  cases hb : resolve fs true b with
  | ok l => rw [hb] at h; simp at h
  | error err => rw [hb] at h; simp at h

/-! ### C2: last layer wins -/

/-- C2 (as stated, refuted): the first layer holds a file `a` and a link `b`
to `a`, the last layer a file `a` with the bytes `[2]` and mode 0644 and then a
file `b` with the bytes `[3]` and mode 0600.  The path `a` is an entry of both
layers, the loop completes, and `a` ends with the bytes and mode of the last
layer's entry for `b`, written through the link. -/
theorem last_layer_overwritten_through_link :
    layerEntries aliasBlobs "busybox".toList [] (layerRef "sha256:01") =
      [⟨⟨TypeReg, "a".toList, [], 0o644⟩, [1]⟩,
       ⟨⟨TypeSymlink, "b".toList, "a".toList, 0o777⟩, []⟩] ∧
    layerEntries aliasBlobs "busybox".toList [] (layerRef "sha256:02") =
      [⟨⟨TypeReg, "a".toList, [], 0o644⟩, [2]⟩,
       ⟨⟨TypeReg, "b".toList, [], 0o600⟩, [3]⟩] ∧
    statAt (pullLayers aliasBlobs "busybox".toList [] demoRoot (emptyRoot demoRoot 0o022)
        [layerRef "sha256:01", layerRef "sha256:02"]).2 (Join demoRoot "a".toList) =
      some (.file [3] 0o600) ∧
    statAt (pullLayers aliasBlobs "busybox".toList [] demoRoot (emptyRoot demoRoot 0o022)
        [layerRef "sha256:01", layerRef "sha256:02"]).2 (Join demoRoot "a".toList) ≠
      some (.file [2] 0o644) := by
  decide

/-- C2 (amended): for every sequence of layers extracted by the layer loop
under any destination root, from any state of the host filesystem (in
particular one in which the root is an empty directory), if the loop completes
without a panic then every path that has a regular-file or directory entry in
the last layer which no later entry of that layer aliases ends as what that
entry says: a regular file with the entry's bytes and permission mode, or a
directory with the entry's permission mode.  A later entry aliases the path
when, at the end and with symbolic links followed, its joined path names the
same object; an entry with the same joined path does. -/
theorem last_layer_wins (blobs : BlobStore) (imgName token R : Str) (fs0 : FS)
    (init : List manifestLayer) (Ln : manifestLayer) (pre post : List Entry) (e : Entry)
    (fsN : FS)
    (hrun : (pullLayers blobs imgName token R fs0 (init ++ [Ln])).2 = .ok fsN)
    (hLn : layerEntries blobs imgName token Ln = pre ++ e :: post)
    (hkind : e.header.Typeflag = TypeReg ∨ e.header.Typeflag = TypeDir)
    (halias : ∀ x ∈ post, resolve fsN true (Join R x.header.Name) ≠
      resolve fsN true (Join R e.header.Name)) :
    Stat fsN (Join R e.header.Name) = .ok (entryNode e) := by
  obtain ⟨fs1, _, h2⟩ := pullLayers_append_ok blobs imgName token R init [Ln] _ _ hrun
  obtain ⟨fs2, h3, h4⟩ := pullLayers_cons_ok blobs imgName token R fs1 fsN Ln [] h2
  simp only [pullLayers, Except.ok.injEq] at h4
  subst h4
  have h5 := pullLayer_ok _ _ _ _ _ _ _ h3
  rw [hLn] at h5
  obtain ⟨fsA, _, h7⟩ := extractEntries_append_ok R pre (e :: post) fs1 fs2 h5
  obtain ⟨fsB, h8, h9⟩ := extractEntries_cons_ok R fsA fs2 e post h7
  obtain ⟨loc, hres, hnode⟩ := processEntry_lands R fsA fsB e hkind h8
  have hnl : ∀ t, entryNode e ≠ .symlink t := by
    intro t
    unfold entryNode
    split <;> simp
  have hresN : resolve fs2 true (Join R e.header.Name) = .ok loc :=
    resolve_ext_some fsB fs2 true _ loc _ (extractEntries_ext R post fsB fs2 h9) hnode hnl hres
  have hkeep := extractEntries_keeps R loc _ hnl post fsB fs2 h9 hnode
    (fun x hx => by rw [← hresN]; exact halias x hx)
  simp [Stat, hresN, hkeep]

/-- Witness for `last_layer_wins`: on a host that holds `/etc` and a symbolic
link `/tmp/link` besides the root, two layers that both hold `etc/motd`, the
first with a symbolic link next to it; the last layer's bytes and mode are the
ones that stay. -/
theorem last_layer_wins_witness :
    ∃ fsN, (pullLayers linkedBlobs "busybox".toList [] demoRoot hostLinked
        ([layerRef "sha256:01"] ++ [layerRef "sha256:02"])).2 = .ok fsN ∧
      Stat fsN (Join demoRoot "etc/motd".toList) = .ok (.file [2] 0o600) := by
  have hc : abortOf (pullLayers linkedBlobs "busybox".toList [] demoRoot hostLinked
      ([layerRef "sha256:01"] ++ [layerRef "sha256:02"])).2 = none := by decide
  have ha : namedApart (pullLayers linkedBlobs "busybox".toList [] demoRoot hostLinked
      ([layerRef "sha256:01"] ++ [layerRef "sha256:02"])).2
      (Join demoRoot "etc/issue".toList) (Join demoRoot "etc/motd".toList) = true := by
    decide
  cases h : (pullLayers linkedBlobs "busybox".toList [] demoRoot hostLinked
      ([layerRef "sha256:01"] ++ [layerRef "sha256:02"])).2 with
  | error p => rw [h] at hc; simp [abortOf] at hc
  | ok fsN =>
    rw [h] at ha
    refine ⟨fsN, rfl, ?_⟩
    exact last_layer_wins linkedBlobs "busybox".toList [] demoRoot hostLinked
      [layerRef "sha256:01"] (layerRef "sha256:02") []
      [⟨⟨TypeReg, "etc/issue".toList, [], 0o644⟩, [3]⟩]
      ⟨⟨TypeReg, "etc/motd".toList, [], 0o600⟩, [2]⟩ fsN h (by decide) (by decide)
      (by
        intro x hx
        simp only [List.mem_singleton] at hx
        subst hx
        exact namedApart_ne fsN _ _ ha)

/-! ### C9: the manifest response -/

theorem decodeMembers_skip {σ : Type} (step : σ → Str → Json → Option σ) (s : σ)
    (members : List (Str × Json)) (h : ∀ kv ∈ members, step s kv.1 kv.2 = some s) :
    decodeMembers step s members = some s := by
  induction members with
  | nil => rfl
  | cons kv rest ih =>
    obtain ⟨k, v⟩ := kv
    have h1 := h (k, v) (by simp)
    simp only at h1
    rw [decodeMembers, h1]
    exact ih (fun kv2 hkv => h kv2 (by simp [hkv]))

theorem decodeManifest_other_keys (members : List (Str × Json))
    (h : ∀ kv ∈ members, keyIs "config" kv.1 = false ∧ keyIs "layers" kv.1 = false) :
    decodeManifest (.json (.obj members)) = some ⟨⟨[], []⟩, []⟩ := by
  have hskip : decodeMembers manifestField ⟨⟨⟨[], []⟩, []⟩, []⟩ members =
      some ⟨⟨⟨[], []⟩, []⟩, []⟩ := by
    apply decodeMembers_skip
    intro kv hkv
    simp [manifestField, (h kv hkv).1, (h kv hkv).2]
  simp only [decodeManifest, decodeStruct, hskip, Option.map_some']

theorem manifestStep_status (res : Fetched Response) (status : Nat) (d2 : List Deferred) :
    manifestStep
      (match res with
        | .response r => .response { r with StatusCode := status }
        | .badRequest => .badRequest
        | .noResponse => .noResponse) d2 = manifestStep res d2 := by
  cases res <;> rfl

theorem prepare_setManifestStatus (h : Host) (status : Nat) :
    prepare (setManifestStatus h status) = prepare h := by
  simp only [prepare, setManifestStatus, manifestStep_status, assemble]

theorem mainBody_setManifestStatus (h : Host) (status : Nat) :
    mainBody (setManifestStatus h status) = mainBody h := by
  simp only [mainBody, prepare_setManifestStatus]
  rfl

/-- C9 (as stated, refuted): the manifest response has status 404 and a
registry error object as body; the body decodes to a manifest without layers,
the manifest step does not fail, no blob is requested, and the run goes on to
launch the command and returns. -/
theorem manifest_404_not_rejected :
    unknownManifest.StatusCode = 404 ∧
    manifestStep (.response unknownManifest) [.removeAll demoRoot] =
      .ok ([.closeBody, .removeAll demoRoot], ⟨⟨[], []⟩, []⟩) ∧
    reachesRun (hostUnknownManifest (.exited 0)) = true ∧
    mainBody (hostUnknownManifest (.exited 0)) =
      ⟨[.closeBody, .closeBody, .removeAll demoRoot], .returned, []⟩ :=
  ⟨by decide, rfl, by decide, by decide⟩

/-- C9 (amended): the manifest step does not read the status code: a run is
the same whatever status code the manifest response carries; the step panics
only when the request cannot be built, when no response arrives or when the
body does not decode; a body that is a JSON object without `config` and
`layers` members, such as a registry error object, decodes to a manifest
without layers, for which the layer loop requests no blob and leaves the
filesystem as it is. -/
theorem manifest_status_ignored :
    (∀ (h : Host) (status : Nat), mainBody (setManifestStatus h status) = mainBody h) ∧
    (∀ (status : Nat) (body : Body) (d2 : List Deferred),
      (∃ r, manifestStep (.response ⟨status, body⟩) d2 = .error r) ↔
        decodeManifest body = none) ∧
    (∀ (status : Nat) (members : List (Str × Json)) (d2 : List Deferred),
      (∀ kv ∈ members, keyIs "config" kv.1 = false ∧ keyIs "layers" kv.1 = false) →
      manifestStep (.response ⟨status, .json (.obj members)⟩) d2 =
        .ok (.closeBody :: d2, ⟨⟨[], []⟩, []⟩)) ∧
    (∀ (blobs : BlobStore) (imgName token path : Str) (fs : FS),
      pullLayers blobs imgName token path fs [] = ([], .ok fs)) := by
  refine ⟨mainBody_setManifestStatus, ?_, ?_, ?_⟩
  · intro status body d2
    simp only [manifestStep]
    cases hd : decodeManifest body <;> simp
  · intro status members d2 h
    simp only [manifestStep, decodeManifest_other_keys members h]
  · intro blobs imgName token path fs
    rfl

/-- Witness for `manifest_status_ignored`: the registry error object of
`unknownManifest` has no `config` or `layers` member. -/
theorem manifest_status_ignored_witness :
    manifestStep (.response unknownManifest) [] = .ok ([.closeBody], ⟨⟨[], []⟩, []⟩) :=
  manifest_status_ignored.2.2.1 404 _ [] (by decide)

/-! ### C4 and C5: how the run ends -/

theorem authStep_deferred (res : Option Response) (path : Str) :
    match authStep res [.removeAll path] with
    | .ok (d2, _) => d2.count (.removeAll path) = 1
    | .error r => r.deferred.count (.removeAll path) = 1 ∧ ∃ p, r.ending = .panicked p := by
  unfold authStep
  cases res with
  | none => simp
  | some res => cases hd : decodeAuth res.Body <;> simp [hd]

theorem manifestStep_deferred (res : Fetched Response) (path : Str) (d2 : List Deferred)
    (h : d2.count (.removeAll path) = 1) :
    match manifestStep res d2 with
    | .ok (d3, _) => d3.count (.removeAll path) = 1
    | .error r => r.deferred.count (.removeAll path) = 1 ∧ ∃ p, r.ending = .panicked p := by
  unfold manifestStep
  cases res with
  | badRequest => simp [h]
  | noResponse => simp [h]
  | response res => cases hd : decodeManifest res.Body <;> simp [hd, h]

theorem assemble_deferred (h : Host) (imgName token path command : Str)
    (d3 : List Deferred) (m : manifest) (hd : d3.count (.removeAll path) = 1) :
    match assemble h imgName token path command d3 m with
    | .ok p => p.deferred.count (.removeAll path) = 1
    | .error r => r.deferred.count (.removeAll path) = 1 ∧ ∃ p, r.ending = .panicked p := by
  unfold assemble
  rcases hp : pullLayers h.registry.blobs imgName token path h.fs m.Layers with ⟨req, res⟩
  cases res with
  | error p => simp [hd]
  | ok fs1 =>
    simp only
    cases hs : stage h.lookPath path command fs1 <;> simp [hs, hd]

theorem prepare_deferred (h : Host) (path : Str) (hm : h.mkdirTemp = some path)
    (hargs : 4 ≤ h.args.length) :
    match prepare h with
    | .ok p => p.deferred.count (.removeAll path) = 1
    | .error r => r.deferred.count (.removeAll path) = 1 ∧ ∃ p, r.ending = .panicked p := by
  unfold prepare
  match hl : h.args with
  | [] => simp [hl] at hargs
  | [_] => simp [hl] at hargs
  | [_, _] => simp [hl] at hargs
  | [_, _, _] => simp [hl] at hargs
  | _ :: _ :: image :: command :: _ =>
    simp only [hm]
    have h1 := authStep_deferred (h.registry.token (parseImage image).name) path
    cases ha : authStep (h.registry.token (parseImage image).name) [.removeAll path] with
    | error r => rw [ha] at h1; exact h1
    | ok r =>
      obtain ⟨d2, data⟩ := r
      rw [ha] at h1
      simp only at h1 ⊢
      have h2 := manifestStep_deferred
        (h.registry.manifest (parseImage image).name (parseImage image).tag data.Token)
        path d2 h1
      cases hms : manifestStep
          (h.registry.manifest (parseImage image).name (parseImage image).tag data.Token)
          d2 with
      | error r => rw [hms] at h2; exact h2
      | ok r =>
        obtain ⟨d3, m⟩ := r
        rw [hms] at h2
        simp only at h2 ⊢
        exact assemble_deferred h _ _ _ _ d3 m h2

/-- Once the temporary root is created, `os.RemoveAll` runs once when `main`
returns or panics and not at all when it calls `os.Exit`. -/
theorem removals_by_ending (h : Host) (path : Str) (hm : h.mkdirTemp = some path)
    (hargs : 4 ≤ h.args.length) :
    (mainBody h).removals path =
      (match (mainBody h).ending with
        | .exited _ => 0
        | _ => 1) := by
  have hp := prepare_deferred h path hm hargs
  unfold mainBody
  cases hprep : prepare h with
  | error r =>
    rw [hprep] at hp
    obtain ⟨hc, p, he⟩ := hp
    simp [Run.removals, Run.deferredCalls, he, hc]
  | ok p =>
    rw [hprep] at hp
    simp only at hp ⊢
    cases hch : h.child with
    | exited c =>
      cases c with
      | zero => simp [afterRun, Run.removals, Run.deferredCalls, hp]
      | succ c => simp [afterRun, Run.removals, Run.deferredCalls]
    | signaled => simp [afterRun, Run.removals, Run.deferredCalls]
    | startFailed => simp [afterRun, Run.removals, Run.deferredCalls]

/-- C4 (code bug): with the temporary root `/tmp/docker-1` created and every
stage up to `cmd.Run()` successful, a command that exits with code 3 makes
`main` call `os.Exit(3)`, and one that cannot be started makes it call
`os.Exit(0)`; in both runs the deferred `os.RemoveAll` does not run, while it
runs once when the command exits with code 0.  In general the root is removed
once when `main` returns or panics and never when it calls `os.Exit`. -/
theorem cleanup_skipped_on_exit :
    (hostBusybox (.exited 3)).mkdirTemp = some demoRoot ∧
    reachesRun (hostBusybox (.exited 3)) = true ∧
    (mainBody (hostBusybox (.exited 3))).ending = .exited 3 ∧
    (mainBody (hostBusybox (.exited 3))).removals demoRoot = 0 ∧
    (mainBody (hostBusybox .startFailed)).ending = .exited 0 ∧
    (mainBody (hostBusybox .startFailed)).removals demoRoot = 0 ∧
    (mainBody (hostBusybox (.exited 0))).ending = .returned ∧
    (mainBody (hostBusybox (.exited 0))).removals demoRoot = 1 ∧
    (∀ (h : Host) (path : Str), h.mkdirTemp = some path → 4 ≤ h.args.length →
      (mainBody h).removals path =
        (match (mainBody h).ending with
          | .exited _ => 0
          | _ => 1)) :=
  ⟨by decide, by decide, by decide, by decide, by decide, by decide, by decide, by decide,
    removals_by_ending⟩

/-- C5: when the run reaches `cmd.Run()` and the command terminates normally
with exit code `c` between 0 and 255, the exit status of the program is `c`:
0 by returning from `main`, any other code through `os.Exit`. -/
theorem exit_code_propagation (h : Host) (p : Prepared) (c : Nat)
    (hp : prepare h = .ok p) (hc : h.child = .exited c) (hle : c ≤ 255) :
    (mainBody h).exitStatus = c ∧
      (mainBody h).ending = (if c = 0 then .returned else .exited (Int.ofNat c)) := by
  unfold mainBody
  rw [hp]
  simp only
  rw [hc]
  cases c with
  | zero => simp [afterRun, Run.exitStatus]
  | succ c =>
    simp only [afterRun, Run.exitStatus]
    refine ⟨?_, by simp⟩
    have h1 : (Int.ofNat (c + 1)) % 256 = Int.ofNat (c + 1) := by
      apply Int.emod_eq_of_lt
      · exact Int.ofNat_nonneg _
      · simp only [Int.ofNat_eq_coe]
        omega
    rw [h1]
    rfl

/-- Witness for `exit_code_propagation`: the command exits with code 3. -/
theorem exit_code_propagation_witness :
    (mainBody (hostBusybox (.exited 3))).exitStatus = 3 := by
  have hr : reachesRun (hostBusybox (.exited 3)) = true := by decide
  unfold reachesRun at hr
  cases hp : prepare (hostBusybox (.exited 3)) with
  | error r => rw [hp] at hr; simp at hr
  | ok p => exact (exit_code_propagation (hostBusybox (.exited 3)) p 3 hp rfl (by decide)).1

end Dockerling
